import Mathlib

/-!
Shallow embedding of the beam-search decoding core of
`machinetranslationmodel.py`, together with theorems checking the
natural-language specification of that code.

Conventions of the embedding:
* token indices are `ℕ`; probabilities and likelihoods are `ℚ`
  (the Python float literal `0.999` is modelled as the exact rational
  `999/1000`);
* a batch of target sentences (`tgt_tokens`, shape `[batch, len]`) is a
  `List (List ℕ)`; the parallel likelihood tensor (`target_probs`) is a
  `List ℚ`; the tensor's second dimension (`shape[1]`) is kept as an
  explicit `len` field, since `torch` keeps that dimension even when the
  batch is empty;
* the scoring model together with the softmax applied to its logits is an
  opaque function `score : List ℕ → List ℕ → List ℚ` giving, for one
  source row and one target-so-far row, the distribution of the next
  token over the vocabulary (the batch dimension of the Python call is
  row-wise independent);
* `torch.Tensor.topk` is modelled with the deterministic tie-break
  "higher value first, equal values by lower index".
-/

/-- Index of the token `<unk>` in `SPECIALS = ['<unk>', '<pad>', '<bos>', '<eos>']`
(`build_vocab_from_iterator` places the specials first, in order). -/
def unkIdx : ℕ := 0

/-- Index of the reserved token `<pad>` in `SPECIALS`. -/
def padIdx : ℕ := 1

/-- Index of the reserved token `<bos>` in `SPECIALS`. -/
def bosIdx : ℕ := 2

/-- Index of the reserved token `<eos>` in `SPECIALS`. -/
def eosIdx : ℕ := 3

/-- One scan of `torch.max` over an indexed list: returns the pair with the
largest second component (first such pair on ties) and the remaining pairs
in their original order.  Auxiliary for the `topk` model. -/
def selectMax : (ℕ × ℚ) → List (ℕ × ℚ) → ((ℕ × ℚ) × List (ℕ × ℚ))
  | best, [] => (best, [])
  | best, x :: xs =>
    if best.2 < x.2 then
      let r := selectMax x xs
      (r.1, best :: r.2)
    else
      let r := selectMax best xs
      (r.1, x :: r.2)

/-- Model of `torch.Tensor.topk` on an indexed list of values: the `k`
largest (index, value) pairs, in decreasing order of value, ties broken by
lower index. -/
def topkPairs : ℕ → List (ℕ × ℚ) → List (ℕ × ℚ)
  | 0, _ => []
  | _ + 1, [] => []
  | k + 1, x :: xs =>
    let r := selectMax x xs
    r.1 :: topkPairs k r.2

/-- `probs, predicted = values.topk(k)` for one row `values`: the result
pairs each selected token index with its probability. -/
def topk (l : List ℚ) (k : ℕ) : List (ℕ × ℚ) := topkPairs k l.enum

/-- `torch.argmax` over one row: index of the first maximal value
(`0` on an empty row).  Used by `greedy_search` on the logits row; since
softmax is strictly monotone, taking it on the post-softmax distribution
row is equivalent. -/
def argmaxP : (ℕ × ℚ) → List (ℕ × ℚ) → (ℕ × ℚ)
  | best, [] => best
  | best, x :: xs => if best.2 < x.2 then argmaxP x xs else argmaxP best xs

/-- First index of the maximum of a row (see `argmaxP`). -/
def argmaxIdx (l : List ℚ) : ℕ :=
  match l.enum with
  | [] => 0
  | x :: xs => (argmaxP x xs).1

/-- `indices_terminated` of the source: indices of the rows containing the
end-of-sentence token, and indices of the remaining rows, both in
enumeration order. -/
def indices_terminated (target : List (List ℕ)) (eos_token : ℕ) :
    List ℕ × List ℕ :=
  ((target.enum.filter (fun p => eos_token ∈ p.2)).map Prod.fst,
   (target.enum.filter (fun p => eos_token ∉ p.2)).map Prod.fst)

/-- `torch.index_select(l, dim=0, index=idx)` for in-range index lists. -/
def indexSelect (l : List α) (idx : List ℕ) : List α :=
  idx.filterMap (fun i => l.get? i)

/-- `append_beams` of the source: every target row is duplicated once per
beam and the corresponding beam token is appended, giving the row layout
`i * n_beams + j ↦ target[i] ++ [beams[i][j]]`. -/
def append_beams (target : List (List ℕ)) (beams : List (List ℕ)) :
    List (List ℕ) :=
  (target.zip beams).flatMap (fun p => p.2.map (fun b => p.1 ++ [b]))

/-- `torch.repeat_interleave(l, k)`. -/
def repeat_interleave (l : List ℚ) (k : ℕ) : List ℚ :=
  l.flatMap (fun p => List.replicate k p)

/-- Pointwise product of two likelihood rows (`a *= b`). -/
def mulPointwise (a b : List ℚ) : List ℚ := List.zipWith (· * ·) a b

/-- The per-step decay factor `0.999` applied to terminated hypotheses
(comment in the source: "Penalize short sequences overtime"). -/
def decayRate : ℚ := 999 / 1000

/-- The comparison used by the final `sorted(sentences, key=likelihood,
reverse=True)`: `a` comes before `b` when `a`'s likelihood is at least
`b`'s. -/
def likGE (a b : List ℕ × ℚ) : Prop := b.2 ≤ a.2

instance : DecidableRel likGE := fun a b => inferInstanceAs (Decidable (b.2 ≤ a.2))

instance : IsTotal (List ℕ × ℚ) likGE := ⟨fun a b => le_total b.2 a.2⟩

instance : IsTrans (List ℕ × ℚ) likGE := ⟨fun _ _ _ h1 h2 => le_trans h2 h1⟩

/-- The state of the `beam_search` while-loop: the common row length
`shape[1]` of `tgt_tokens`, the rows of `tgt_tokens`, and `target_probs`. -/
structure BeamState where
  len : ℕ
  tgt : List (List ℕ)
  probs : List ℚ
  deriving Repr, DecidableEq

/-- One iteration of the `beam_search` loop body up to (excluding) the
trim to `max_target` rows: score all rows, split terminated from active
rows, expand each active row with its `beam_width` top tokens, multiply
the duplicated likelihoods by the corresponding token probabilities, pad
each terminated row with one `0` token (`torch.zeros`) and decay its
likelihood by `0.999`, then concatenate expanded-active rows before
terminated rows. -/
def beamStepMerge (score : List ℕ → List ℕ → List ℚ) (src : List ℕ)
    (eos beam_width : ℕ) (st : BeamState) : BeamState :=
  let preds := st.tgt.map (fun t => topk (score src t) beam_width)
  let idx := indices_terminated st.tgt eos
  let tgtT := indexSelect st.tgt idx.1
  let probsT := indexSelect st.probs idx.1
  let tgtO := indexSelect st.tgt idx.2
  let probsO := indexSelect st.probs idx.2
  let predsO := indexSelect preds idx.2
  let tgtO' := append_beams tgtO (predsO.map (fun row => row.map Prod.fst))
  let tgtT' := tgtT.map (fun t => t ++ [0])
  let probsO' := mulPointwise (repeat_interleave probsO beam_width)
    ((predsO.map (fun row => row.map Prod.snd)).flatten)
  let probsT' := probsT.map (fun p => p * decayRate)
  ⟨st.len + 1, tgtO' ++ tgtT', probsO' ++ probsT'⟩

/-- The trim sub-step: when the pool holds more than `max_target` rows,
keep exactly the rows of the `max_target` largest likelihoods
(`target_probs.topk(k=max_target)` followed by an `index_select` on the
returned indices); otherwise the pool is left as is (`continue`). -/
def trimPool (max_target : ℕ) (st : BeamState) : BeamState :=
  if st.probs.length ≤ max_target then st
  else
    let pairs := topkPairs max_target st.probs.enum
    ⟨st.len, indexSelect st.tgt (pairs.map Prod.fst), pairs.map Prod.snd⟩

/-- One full iteration of the `beam_search` loop body. -/
def beamStep (score : List ℕ → List ℕ → List ℚ) (src : List ℕ)
    (eos beam_width max_target : ℕ) (st : BeamState) : BeamState :=
  trimPool max_target (beamStepMerge score src eos beam_width st)

theorem len_beamStepMerge (score : List ℕ → List ℕ → List ℚ) (src : List ℕ)
    (eos beam_width : ℕ) (st : BeamState) :
    (beamStepMerge score src eos beam_width st).len = st.len + 1 := rfl

theorem len_trimPool (max_target : ℕ) (st : BeamState) :
    (trimPool max_target st).len = st.len := by
  unfold trimPool; split <;> rfl

theorem len_beamStep (score : List ℕ → List ℕ → List ℚ) (src : List ℕ)
    (eos beam_width max_target : ℕ) (st : BeamState) :
    (beamStep score src eos beam_width max_target st).len = st.len + 1 := by
  unfold beamStep
  rw [len_trimPool, len_beamStepMerge]

/-- The body of the `while tgt_tokens.shape[1] < max_sentence_length`
loop, with an explicit iteration budget; since every `beamStep` increases
`len` by exactly one, a budget of `max_len - len` makes the budget and
the loop condition run out together (`beamLoop_eq` below). -/
def beamLoopF (score : List ℕ → List ℕ → List ℚ) (src : List ℕ)
    (eos beam_width max_target max_len : ℕ) : ℕ → BeamState → BeamState
  | 0, st => st
  | fuel + 1, st =>
    if st.len < max_len then
      beamLoopF score src eos beam_width max_target max_len fuel
        (beamStep score src eos beam_width max_target st)
    else st

/-- The `while tgt_tokens.shape[1] < max_sentence_length` loop. -/
def beamLoop (score : List ℕ → List ℕ → List ℚ) (src : List ℕ)
    (eos beam_width max_target max_len : ℕ) (st : BeamState) : BeamState :=
  beamLoopF score src eos beam_width max_target max_len (max_len - st.len) st

/-- `beam_search` of the source, at the token level: the source token row
is wrapped as `['<bos>'] + src_tokenizer(source) + ['<eos>']`, the pool
starts as the single row `[<bos>]` with likelihood `1`, the loop of
`beamStep` runs until the common row length reaches
`max_sentence_length`, and each surviving row is stripped of its leading
`<bos>` and truncated at (excluding) the first `<eos>`; the rows, paired
with their likelihoods, are returned sorted by decreasing likelihood
(Python's stable `sorted(..., reverse=True)`).  The detokenization
(vocabulary lookup, joining with spaces, `beautify`) of each row is the
collaborator part, modelled separately by `beautify` on character lists. -/
def beam_search (score : List ℕ → List ℕ → List ℚ) (srcTok : List ℕ)
    (beam_width max_target max_len : ℕ) : List (List ℕ × ℚ) :=
  let src := bosIdx :: (srcTok ++ [eosIdx])
  let st := beamLoop score src eosIdx beam_width max_target max_len
    ⟨1, [[bosIdx]], [1]⟩
  let seqs := st.tgt.map (fun t => (t.drop 1).takeWhile (fun x => x ≠ eosIdx))
  List.insertionSort likGE (seqs.zip st.probs)

/-- The loop of `greedy_search`: up to `n` times, append the argmax token
of the model's next-token row, stopping right after the appended token is
`<eos>`. -/
def greedyLoop (score : List ℕ → List ℕ → List ℚ) (src : List ℕ) :
    List ℕ → ℕ → List ℕ
  | tgt, 0 => tgt
  | tgt, n + 1 =>
    let nxt := argmaxIdx (score src tgt)
    if nxt = eosIdx then tgt ++ [nxt]
    else greedyLoop score src (tgt ++ [nxt]) n

/-- `greedy_search` of the source, at the token level: the source row is
the bare tokenized sentence (no `<bos>`/`<eos>` wrapping, unlike
`beam_search`), the target starts as `[<bos>]`, and the returned sentence
is the final target row with only the leading `<bos>` removed (a final
`<eos>`, when present, is kept in the output). -/
def greedy_search (score : List ℕ → List ℕ → List ℚ) (srcTok : List ℕ)
    (max_len : ℕ) : List ℕ :=
  (greedyLoop score srcTok [bosIdx] max_len).drop 1

/-- The space character, written via its code point to keep the text plain. -/
def spC : Char := Char.ofNat 32

/-- The apostrophe character. -/
def apoC : Char := Char.ofNat 39

/-- Python's `str.replace` specialised to a two-character pattern `[a, b]`
replaced by the single character `c`: one left-to-right scan replacing
non-overlapping occurrences (text already emitted is not rescanned). -/
def rep2 (a b c : Char) : List Char → List Char
  | [] => []
  | [x] => [x]
  | x :: y :: r =>
    if x = a ∧ y = b then c :: rep2 a b c r
    else x :: rep2 a b c (y :: r)

/-- `beautify` of the source, on character lists: remove the space before
each of `.`, `,`, `;`, then the spaces around `-` and around `'`.  The
source iterates over Python sets `{'.', ',', ';'}` and `{'-', "'"}`
whose order is unspecified; a fixed order is chosen here (for these
patterns the replacement passes commute, so the choice is immaterial). -/
def beautify (s : List Char) : List Char :=
  let s1 := rep2 spC '.' '.' s
  let s2 := rep2 spC ',' ',' s1
  let s3 := rep2 spC ';' ';' s2
  let s4 := rep2 '-' spC '-' s3
  let s5 := rep2 spC '-' '-' s4
  let s6 := rep2 apoC spC apoC s5
  rep2 spC apoC apoC s6

/-! ### Claim C10: `indices_terminated` yields a sorted partition of the rows -/

theorem le_fst_of_mem_enumFrom {α : Type} {q : ℕ × α} :
    ∀ {l : List α} {n : ℕ}, q ∈ l.enumFrom n → n ≤ q.1 := by
  intro l
  induction l with
  | nil => intro n h; simp [List.enumFrom] at h
  | cons x xs ih =>
    intro n h
    rw [List.enumFrom_cons] at h
    rcases List.mem_cons.mp h with h | h
    · subst h; exact le_refl n
    · exact Nat.le_of_succ_le (ih h)

theorem pairwise_fst_lt_enumFrom {α : Type} :
    ∀ (l : List α) (n : ℕ),
      List.Pairwise (fun a b : ℕ × α => a.1 < b.1) (l.enumFrom n) := by
  intro l
  induction l with
  | nil => intro n; simp [List.enumFrom]
  | cons x xs ih =>
    intro n
    rw [List.enumFrom_cons]
    exact List.Pairwise.cons
      (fun q hq => Nat.lt_of_succ_le (le_fst_of_mem_enumFrom hq)) (ih (n + 1))

theorem pairwise_fst_lt_enum {α : Type} (l : List α) :
    List.Pairwise (fun a b : ℕ × α => a.1 < b.1) l.enum :=
  pairwise_fst_lt_enumFrom l 0

theorem length_filter_mem_add (l : List (ℕ × List ℕ)) (e : ℕ) :
    (l.filter (fun p => e ∈ p.2)).length
      + (l.filter (fun p => e ∉ p.2)).length = l.length := by
  induction l with
  | nil => rfl
  | cons x xs ih =>
    by_cases h : e ∈ x.2 <;>
      simp [List.filter_cons, h, ← ih] <;> omega

/-- Claim C10: for every batch of target sequences and end-marker index,
`indices_terminated` returns two index lists forming a partition of the
row indices: an index is in the first list iff its row contains the end
marker, in the second iff not (each index of the batch in exactly one),
both lists are strictly increasing, and their lengths sum to the batch
size. -/
theorem indices_terminated_partition (target : List (List ℕ)) (eos : ℕ) :
    (∀ i, i ∈ (indices_terminated target eos).1 ↔
      ∃ row, target.get? i = some row ∧ eos ∈ row) ∧
    (∀ i, i ∈ (indices_terminated target eos).2 ↔
      ∃ row, target.get? i = some row ∧ eos ∉ row) ∧
    List.Sorted (· < ·) (indices_terminated target eos).1 ∧
    List.Sorted (· < ·) (indices_terminated target eos).2 ∧
    (indices_terminated target eos).1.length
      + (indices_terminated target eos).2.length = target.length := by
  refine ⟨?_, ?_, ?_, ?_, ?_⟩
  · intro i
    constructor
    · intro h
      rcases List.mem_map.mp h with ⟨q, hq, hqi⟩
      rcases List.mem_filter.mp hq with ⟨hmem, hp⟩
      refine ⟨q.2, ?_, by simpa using hp⟩
      rw [← hqi]
      exact List.mem_enum_iff_get?.mp hmem
    · rintro ⟨row, hrow, he⟩
      refine List.mem_map.mpr ⟨(i, row), List.mem_filter.mpr ⟨?_, by simpa⟩, rfl⟩
      exact List.mk_mem_enum_iff_get?.mpr hrow
  · intro i
    constructor
    · intro h
      rcases List.mem_map.mp h with ⟨q, hq, hqi⟩
      rcases List.mem_filter.mp hq with ⟨hmem, hp⟩
      refine ⟨q.2, ?_, by simpa using hp⟩
      rw [← hqi]
      exact List.mem_enum_iff_get?.mp hmem
    · rintro ⟨row, hrow, he⟩
      refine List.mem_map.mpr ⟨(i, row), List.mem_filter.mpr ⟨?_, by simpa⟩, rfl⟩
      exact List.mk_mem_enum_iff_get?.mpr hrow
  · exact List.pairwise_map.mpr
      (List.Pairwise.sublist (List.filter_sublist _) (pairwise_fst_lt_enum target))
  · exact List.pairwise_map.mpr
      (List.Pairwise.sublist (List.filter_sublist _) (pairwise_fst_lt_enum target))
  · simp only [indices_terminated, List.length_map]
    rw [length_filter_mem_add target.enum eos, List.enum_length]

/-! ### Properties of the `topk` model (used by the trim step, claim C4) -/

theorem selectMax_perm (best : ℕ × ℚ) (l : List (ℕ × ℚ)) :
    List.Perm ((selectMax best l).1 :: (selectMax best l).2) (best :: l) := by
  induction l generalizing best with
  | nil => simp [selectMax]
  | cons x xs ih =>
    simp only [selectMax]
    split
    · exact (List.Perm.swap best (selectMax x xs).1 (selectMax x xs).2).trans
        ((ih x).cons best)
    · exact ((List.Perm.swap x (selectMax best xs).1 (selectMax best xs).2).trans
        ((ih best).cons x)).trans (List.Perm.swap best x xs)

theorem selectMax_ge_best (best : ℕ × ℚ) (l : List (ℕ × ℚ)) :
    best.2 ≤ (selectMax best l).1.2 := by
  induction l generalizing best with
  | nil => simp [selectMax]
  | cons x xs ih =>
    simp only [selectMax]
    split
    · next h => exact le_trans (le_of_lt h) (ih x)
    · exact ih best

theorem selectMax_ge_mem (best : ℕ × ℚ) (l : List (ℕ × ℚ)) :
    ∀ y ∈ l, y.2 ≤ (selectMax best l).1.2 := by
  induction l generalizing best with
  | nil => simp
  | cons x xs ih =>
    intro y hy
    rcases List.mem_cons.mp hy with rfl | hy
    · simp only [selectMax]
      split
      · next h => exact selectMax_ge_best y xs
      · next h => exact le_trans (le_of_not_lt h) (selectMax_ge_best best xs)
    · simp only [selectMax]
      split
      · exact ih x y hy
      · exact ih best y hy

theorem selectMax_le (best : ℕ × ℚ) (l : List (ℕ × ℚ)) :
    ∀ y ∈ (selectMax best l).2, y.2 ≤ (selectMax best l).1.2 := by
  intro y hy
  have hmem : y ∈ best :: l :=
    (selectMax_perm best l).mem_iff.mp (List.mem_cons_of_mem _ hy)
  rcases List.mem_cons.mp hmem with rfl | hmem
  · exact selectMax_ge_best y l
  · exact selectMax_ge_mem best l y hmem

theorem selectMax_length (best : ℕ × ℚ) (l : List (ℕ × ℚ)) :
    (selectMax best l).2.length = l.length := by
  have h := (selectMax_perm best l).length_eq
  simpa using h

theorem topkPairs_length (k : ℕ) (l : List (ℕ × ℚ)) :
    (topkPairs k l).length = min k l.length := by
  induction k generalizing l with
  | zero => simp [topkPairs]
  | succ k ih =>
    cases l with
    | nil => simp [topkPairs]
    | cons x xs =>
      simp only [topkPairs, List.length_cons, ih, selectMax_length]
      omega

/-- The trim selection is a sub-permutation of the pool dominating what it
drops: the selected pairs together with some rest are a permutation of the
pool, and every selected value is at least every dropped value. -/
theorem topkPairs_exists_rest (k : ℕ) (l : List (ℕ × ℚ)) :
    ∃ rest, List.Perm (topkPairs k l ++ rest) l ∧
      ∀ q ∈ topkPairs k l, ∀ r ∈ rest, r.2 ≤ q.2 := by
  induction k generalizing l with
  | zero => exact ⟨l, by simp [topkPairs], by simp [topkPairs]⟩
  | succ k ih =>
    cases l with
    | nil => exact ⟨[], by simp [topkPairs], by simp [topkPairs]⟩
    | cons x xs =>
      rcases ih (selectMax x xs).2 with ⟨rest, hperm, hdom⟩
      refine ⟨rest, ?_, ?_⟩
      · simp only [topkPairs, List.cons_append]
        exact (hperm.cons (selectMax x xs).1).trans (selectMax_perm x xs)
      · intro q hq r hr
        simp only [topkPairs, List.mem_cons] at hq
        rcases hq with rfl | hq
        · have hrmem : r ∈ (selectMax x xs).2 :=
            hperm.mem_iff.mp (List.mem_append_right _ hr)
          exact selectMax_le x xs r hrmem
        · exact hdom q hq r hr

/-! ### Row-alignment infrastructure: the two tensors keep equal batch sizes -/

theorem indexSelect_map_getD {α : Type} (l : List α) (idx : List ℕ) (d : α)
    (h : ∀ i ∈ idx, i < l.length) :
    indexSelect l idx = idx.map (fun i => l.getD i d) := by
  induction idx with
  | nil => rfl
  | cons i is ih =>
    have hi : i < l.length := h i (List.mem_cons_self i is)
    have hget : l.get? i = some (l.getD i d) := by
      rw [List.get?_eq_getElem?, List.getElem?_eq_getElem hi, List.getD,
        List.get?_eq_getElem?, List.getElem?_eq_getElem hi]
      rfl
    simp only [indexSelect, List.filterMap_cons, hget, List.map_cons]
    exact congrArg _ (ih (fun j hj => h j (List.mem_cons_of_mem i hj)))

theorem indexSelect_length {α : Type} (l : List α) (idx : List ℕ)
    (h : ∀ i ∈ idx, i < l.length) :
    (indexSelect l idx).length = idx.length := by
  induction idx with
  | nil => rfl
  | cons i is ih =>
    have hi : i < l.length := h i (List.mem_cons_self i is)
    rcases List.get?_eq_some.mpr ⟨hi, rfl⟩ with hget
    simp only [indexSelect, List.filterMap_cons, hget, List.length_cons]
    exact congrArg _ (ih (fun j hj => h j (List.mem_cons_of_mem i hj)))

theorem mem_indices_fst_lt (target : List (List ℕ)) (eos : ℕ) :
    ∀ i ∈ (indices_terminated target eos).1, i < target.length := by
  intro i hi
  rcases ((indices_terminated_partition target eos).1 i).mp hi with ⟨row, hrow, _⟩
  exact List.get?_eq_some.mp hrow |>.1

theorem mem_indices_snd_lt (target : List (List ℕ)) (eos : ℕ) :
    ∀ i ∈ (indices_terminated target eos).2, i < target.length := by
  intro i hi
  rcases ((indices_terminated_partition target eos).2.1 i).mp hi with ⟨row, hrow, _⟩
  exact List.get?_eq_some.mp hrow |>.1

theorem length_repeat_interleave (l : List ℚ) (k : ℕ) :
    (repeat_interleave l k).length = l.length * k := by
  induction l with
  | nil => simp [repeat_interleave]
  | cons x xs ih =>
    simp only [repeat_interleave, List.flatMap_cons, List.length_append,
      List.length_replicate] at *
    rw [ih, List.length_cons]
    ring

theorem sum_len_zip {α β : Type} :
    ∀ (A : List α) (B : List (List β)), A.length = B.length →
      (((A.zip B).map (fun p => p.2.length)).sum = (B.map List.length).sum) := by
  intro A
  induction A with
  | nil => intro B h; cases B with
    | nil => rfl
    | cons b bs => simp at h
  | cons a as ih =>
    intro B h
    cases B with
    | nil => simp at h
    | cons b bs =>
      simp only [List.zip_cons_cons, List.map_cons, List.sum_cons]
      rw [ih bs (by simpa using h)]

theorem length_append_beams (A : List (List ℕ)) (B : List (List ℕ))
    (h : A.length = B.length) :
    (append_beams A B).length = (B.map List.length).sum := by
  rw [append_beams, List.length_flatMap]
  rw [← sum_len_zip A B h]
  congr 1
  simp [Function.comp]

theorem sum_map_length_le {β : Type} (B : List (List β)) (k : ℕ)
    (h : ∀ b ∈ B, b.length ≤ k) :
    (B.map List.length).sum ≤ B.length * k := by
  induction B with
  | nil => simp
  | cons b bs ih =>
    simp only [List.map_cons, List.sum_cons, List.length_cons]
    have h1 := h b (List.mem_cons_self b bs)
    have h2 := ih (fun x hx => h x (List.mem_cons_of_mem b hx))
    calc b.length + (bs.map List.length).sum ≤ k + bs.length * k := by omega
      _ = (bs.length + 1) * k := by ring

/-- The merge sub-step keeps the token rows and the likelihood row aligned:
both tensors have the same batch size afterwards. -/
theorem beamStepMerge_aligned (score : List ℕ → List ℕ → List ℚ) (src : List ℕ)
    (eos k : ℕ) (st : BeamState) (hst : st.tgt.length = st.probs.length) :
    (beamStepMerge score src eos k st).tgt.length
      = (beamStepMerge score src eos k st).probs.length := by
  simp only [beamStepMerge, List.length_append, List.length_map]
  have hT := mem_indices_fst_lt st.tgt eos
  have hN := mem_indices_snd_lt st.tgt eos
  have hTp : ∀ i ∈ (indices_terminated st.tgt eos).1, i < st.probs.length :=
    fun i hi => hst ▸ hT i hi
  have hNp : ∀ i ∈ (indices_terminated st.tgt eos).2, i < st.probs.length :=
    fun i hi => hst ▸ hN i hi
  have hNpr : ∀ i ∈ (indices_terminated st.tgt eos).2,
      i < (st.tgt.map (fun t => topk (score src t) k)).length := by
    intro i hi; rw [List.length_map]; exact hN i hi
  have e1 : (indexSelect st.tgt (indices_terminated st.tgt eos).1).length
      = (indices_terminated st.tgt eos).1.length := indexSelect_length _ _ hT
  have e2 : (indexSelect st.probs (indices_terminated st.tgt eos).1).length
      = (indices_terminated st.tgt eos).1.length := indexSelect_length _ _ hTp
  have e3 : (indexSelect st.tgt (indices_terminated st.tgt eos).2).length
      = (indices_terminated st.tgt eos).2.length := indexSelect_length _ _ hN
  have e4 : (indexSelect st.probs (indices_terminated st.tgt eos).2).length
      = (indices_terminated st.tgt eos).2.length := indexSelect_length _ _ hNp
  have e5 : (indexSelect (st.tgt.map (fun t => topk (score src t) k))
        (indices_terminated st.tgt eos).2).length
      = (indices_terminated st.tgt eos).2.length := indexSelect_length _ _ hNpr
  rw [length_append_beams _ _ (by rw [e3, List.length_map, e5])]
  rw [mulPointwise, List.length_zipWith, length_repeat_interleave]
  have hrows : ∀ b ∈ (indexSelect (st.tgt.map (fun t => topk (score src t) k))
      (indices_terminated st.tgt eos).2).map (fun row => row.map Prod.snd),
      b.length ≤ k := by
    intro b hb
    rcases List.mem_map.mp hb with ⟨row, hrow, rfl⟩
    rcases List.mem_filterMap.mp hrow with ⟨i, _, hget⟩
    rw [List.get?_map] at hget
    rcases Option.map_eq_some'.mp hget with ⟨t, _, rfl⟩
    rw [List.length_map, topk, topkPairs_length]
    omega
  have hsameshape :
      ((indexSelect (st.tgt.map (fun t => topk (score src t) k))
          (indices_terminated st.tgt eos).2).map
        (fun row => row.map Prod.snd)).map List.length
      = ((indexSelect (st.tgt.map (fun t => topk (score src t) k))
          (indices_terminated st.tgt eos).2).map
        (fun row => row.map Prod.fst)).map List.length := by
    simp [List.map_map, Function.comp]
  rw [List.length_flatten, hsameshape]
  have hsum := sum_map_length_le
    ((indexSelect (st.tgt.map (fun t => topk (score src t) k))
        (indices_terminated st.tgt eos).2).map (fun row => row.map Prod.fst)) k
    (by
      intro b hb
      rcases List.mem_map.mp hb with ⟨row, hrow, rfl⟩
      rcases List.mem_filterMap.mp hrow with ⟨i, _, hget⟩
      rw [List.get?_map] at hget
      rcases Option.map_eq_some'.mp hget with ⟨t, _, rfl⟩
      rw [List.length_map, topk, topkPairs_length]
      omega)
  rw [List.length_map, e5] at hsum
  rw [e1, e2, e4]
  omega

theorem topkPairs_subset (k : ℕ) (l : List (ℕ × ℚ)) :
    ∀ q ∈ topkPairs k l, q ∈ l := by
  intro q hq
  rcases topkPairs_exists_rest k l with ⟨rest, hperm, _⟩
  exact hperm.mem_iff.mp (List.mem_append_left _ hq)

theorem fst_lt_of_mem_enum {α : Type} {l : List α} {q : ℕ × α}
    (h : q ∈ l.enum) : q.1 < l.length := by
  have := List.mem_enum_iff_get?.mp h
  exact (List.get?_eq_some.mp this).1

theorem enumFrom_map_getD_zip (L : List (List ℕ)) (ps : List ℚ) :
    ∀ (n : ℕ), n + ps.length ≤ L.length →
      (ps.enumFrom n).map (fun q => (L.getD q.1 [], q.2)) = (L.drop n).zip ps := by
  induction ps with
  | nil => intro n _; simp
  | cons p ps ih =>
    intro n h
    have hn : n < L.length := by simp at h; omega
    rw [List.enumFrom_cons, List.map_cons]
    have hdrop : L.drop n = L.getD n [] :: L.drop (n + 1) := by
      rw [List.drop_eq_getElem_cons hn, List.getD, List.get?_eq_getElem?,
        List.getElem?_eq_getElem hn]
      rfl
    rw [hdrop, List.zip_cons_cons]
    exact congrArg _ (ih (n + 1) (by simp at h ⊢; omega))

theorem enum_map_getD_zip (L : List (List ℕ)) (ps : List ℚ)
    (h : ps.length ≤ L.length) :
    ps.enum.map (fun q => (L.getD q.1 [], q.2)) = L.zip ps := by
  have := enumFrom_map_getD_zip L ps 0 (by omega)
  simpa [List.enum] using this

/-- Claim C4: after the trim sub-step of any decode step (on a pool whose
token rows and likelihood row are aligned), the pool holds at most
`max_target` hypotheses; if the merged pool did not exceed `max_target`
the trim is the identity, and otherwise exactly `max_target` hypotheses
are retained and they are a sub-permutation of the merged pool every
retained likelihood of which is at least every dropped likelihood. -/
theorem beamStep_trim_bound (score : List ℕ → List ℕ → List ℚ) (src : List ℕ)
    (eos k maxT : ℕ) (st : BeamState) (hst : st.tgt.length = st.probs.length) :
    (beamStep score src eos k maxT st).probs.length ≤ maxT ∧
    ((beamStepMerge score src eos k st).probs.length ≤ maxT →
      beamStep score src eos k maxT st = beamStepMerge score src eos k st) ∧
    (maxT < (beamStepMerge score src eos k st).probs.length →
      (beamStep score src eos k maxT st).probs.length = maxT ∧
      ∃ rest,
        List.Perm
          ((beamStep score src eos k maxT st).tgt.zip
              (beamStep score src eos k maxT st).probs ++ rest)
          ((beamStepMerge score src eos k st).tgt.zip
              (beamStepMerge score src eos k st).probs) ∧
        ∀ q ∈ (beamStep score src eos k maxT st).tgt.zip
            (beamStep score src eos k maxT st).probs,
          ∀ r ∈ rest, r.2 ≤ q.2) := by
  have halign := beamStepMerge_aligned score src eos k st hst
  set m := beamStepMerge score src eos k st with hm
  by_cases hle : m.probs.length ≤ maxT
  · have hpost : beamStep score src eos k maxT st = m := by
      rw [beamStep, ← hm, trimPool, if_pos hle]
    refine ⟨by rw [hpost]; exact hle, fun _ => hpost, fun hgt => absurd hgt (by omega)⟩
  · push_neg at hle
    have hpost : beamStep score src eos k maxT st =
        ⟨m.len, indexSelect m.tgt ((topkPairs maxT m.probs.enum).map Prod.fst),
          (topkPairs maxT m.probs.enum).map Prod.snd⟩ := by
      rw [beamStep, ← hm, trimPool, if_neg (by omega)]
    have hlenpairs : (topkPairs maxT m.probs.enum).length = maxT := by
      rw [topkPairs_length, List.enum_length]
      omega
    have hidx : ∀ i ∈ (topkPairs maxT m.probs.enum).map Prod.fst,
        i < m.tgt.length := by
      intro i hi
      rcases List.mem_map.mp hi with ⟨q, hq, rfl⟩
      have hqe := topkPairs_subset _ _ q hq
      have := fst_lt_of_mem_enum hqe
      omega
    have hzip : (beamStep score src eos k maxT st).tgt.zip
        (beamStep score src eos k maxT st).probs
        = (topkPairs maxT m.probs.enum).map (fun q => (m.tgt.getD q.1 [], q.2)) := by
      rw [hpost]
      show (indexSelect m.tgt ((topkPairs maxT m.probs.enum).map Prod.fst)).zip
        ((topkPairs maxT m.probs.enum).map Prod.snd) = _
      rw [indexSelect_map_getD m.tgt _ [] hidx, List.map_map]
      exact List.zip_map' _ Prod.snd _
    rcases topkPairs_exists_rest maxT m.probs.enum with ⟨rest0, hperm, hdom⟩
    refine ⟨by rw [hpost]; simpa using le_of_eq hlenpairs,
      fun h => absurd h (by omega), fun _ => ?_⟩
    refine ⟨by rw [hpost]; simpa using hlenpairs,
      rest0.map (fun q => (m.tgt.getD q.1 [], q.2)), ?_, ?_⟩
    · rw [hzip, ← List.map_append]
      have hmapped := hperm.map (fun q => (m.tgt.getD q.1 [], q.2))
      rwa [enum_map_getD_zip m.tgt m.probs (le_of_eq halign.symm)] at hmapped
    · intro q hq r hr
      rw [hzip] at hq
      rcases List.mem_map.mp hq with ⟨q0, hq0, rfl⟩
      rcases List.mem_map.mp hr with ⟨r0, hr0, rfl⟩
      exact hdom q0 hq0 r0 hr0

/-! ### Loop characterisation and invariants (claims C5, C6) -/

theorem beamLoop_eq (score : List ℕ → List ℕ → List ℚ) (src : List ℕ)
    (eos k maxT maxLen : ℕ) (st : BeamState) :
    beamLoop score src eos k maxT maxLen st =
      if st.len < maxLen then
        beamLoop score src eos k maxT maxLen (beamStep score src eos k maxT st)
      else st := by
  unfold beamLoop
  rcases h : maxLen - st.len with _ | n
  · rw [if_neg (by omega)]
    rfl
  · have hlt : st.len < maxLen := by omega
    rw [if_pos hlt]
    show beamLoopF score src eos k maxT maxLen (n + 1) st = _
    rw [beamLoopF, if_pos hlt]
    congr 1
    rw [len_beamStep]
    omega

theorem beamLoop_invariant {motive : BeamState → Prop}
    (score : List ℕ → List ℕ → List ℚ) (src : List ℕ) (eos k maxT maxLen : ℕ)
    (hstep : ∀ st, motive st → motive (beamStep score src eos k maxT st)) :
    ∀ st, motive st → motive (beamLoop score src eos k maxT maxLen st) := by
  have key : ∀ (fuel : ℕ) (st : BeamState), maxLen - st.len ≤ fuel →
      motive st → motive (beamLoop score src eos k maxT maxLen st) := by
    intro fuel
    induction fuel with
    | zero =>
      intro st hf hm
      rw [beamLoop_eq, if_neg (by omega)]
      exact hm
    | succ fuel ih =>
      intro st hf hm
      rw [beamLoop_eq]
      split
      · next hlt =>
        exact ih _ (by rw [len_beamStep]; omega) (hstep st hm)
      · exact hm
  exact fun st => key (maxLen - st.len) st (le_refl _)

theorem beamLoop_len (score : List ℕ → List ℕ → List ℚ) (src : List ℕ)
    (eos k maxT maxLen : ℕ) :
    ∀ st, (beamLoop score src eos k maxT maxLen st).len = max st.len maxLen := by
  have key : ∀ (fuel : ℕ) (st : BeamState), maxLen - st.len ≤ fuel →
      (beamLoop score src eos k maxT maxLen st).len = max st.len maxLen := by
    intro fuel
    induction fuel with
    | zero =>
      intro st hf
      rw [beamLoop_eq, if_neg (by omega)]
      omega
    | succ fuel ih =>
      intro st hf
      rw [beamLoop_eq]
      split
      · next hlt =>
        rw [ih _ (by rw [len_beamStep]; omega), len_beamStep]
        omega
      · next hge => omega
  exact fun st => key (maxLen - st.len) st (le_refl _)

theorem beamLoop_eq_iterate (score : List ℕ → List ℕ → List ℚ) (src : List ℕ)
    (eos k maxT maxLen : ℕ) :
    ∀ st, beamLoop score src eos k maxT maxLen st =
      (beamStep score src eos k maxT)^[maxLen - st.len] st := by
  have key : ∀ (fuel : ℕ) (st : BeamState), maxLen - st.len ≤ fuel →
      beamLoop score src eos k maxT maxLen st =
        (beamStep score src eos k maxT)^[maxLen - st.len] st := by
    intro fuel
    induction fuel with
    | zero =>
      intro st hf
      rw [beamLoop_eq, if_neg (by omega)]
      have : maxLen - st.len = 0 := by omega
      rw [this, Function.iterate_zero_apply]
    | succ fuel ih =>
      intro st hf
      rw [beamLoop_eq]
      split
      · next hlt =>
        rw [ih _ (by rw [len_beamStep]; omega), len_beamStep]
        have hm : maxLen - st.len = (maxLen - (st.len + 1)) + 1 := by omega
        rw [hm, Function.iterate_succ_apply]
      · next hge =>
        have : maxLen - st.len = 0 := by omega
        rw [this, Function.iterate_zero_apply]
  exact fun st => key (maxLen - st.len) st (le_refl _)

theorem mem_indexSelect {α : Type} {l : List α} {idx : List ℕ} :
    ∀ x ∈ indexSelect l idx, x ∈ l := by
  intro x hx
  rcases List.mem_filterMap.mp hx with ⟨i, _, hget⟩
  exact List.get?_mem hget

/-- Every row of the pool has the common length recorded in `len`
(the `torch` rectangular-tensor invariant), preserved by each step. -/
theorem beamStep_rows_len (score : List ℕ → List ℕ → List ℚ) (src : List ℕ)
    (eos k maxT : ℕ) (st : BeamState)
    (h : ∀ r ∈ st.tgt, r.length = st.len) :
    ∀ r ∈ (beamStep score src eos k maxT st).tgt,
      r.length = (beamStep score src eos k maxT st).len := by
  have hmerge : ∀ r ∈ (beamStepMerge score src eos k st).tgt,
      r.length = st.len + 1 := by
    intro r hr
    simp only [beamStepMerge] at hr
    rcases List.mem_append.mp hr with hr | hr
    · rcases List.mem_flatMap.mp hr with ⟨p, hp, hrp⟩
      rcases List.mem_map.mp hrp with ⟨b, _, rfl⟩
      have hp1 : p.1 ∈ indexSelect st.tgt (indices_terminated st.tgt eos).2 :=
        (List.mem_zip hp).1
      have := h p.1 (mem_indexSelect _ hp1)
      simp [this]
    · rcases List.mem_map.mp hr with ⟨t, ht, rfl⟩
      have := h t (mem_indexSelect _ (by exact ht))
      simp [this]
  rw [len_beamStep]
  intro r hr
  have : r ∈ (beamStepMerge score src eos k st).tgt := by
    rw [beamStep] at hr
    rw [trimPool] at hr
    split at hr
    · exact hr
    · exact mem_indexSelect _ hr
  exact hmerge r this

/-- Claim C5: the list returned by `beam_search` is, up to the descending
likelihood sort, exactly the surviving rows with the begin marker stripped
and truncated at (and excluding) the first end marker, each paired with
its accumulated likelihood; and every adjacent output pair is ordered by
non-increasing likelihood. -/
theorem beam_search_output (score : List ℕ → List ℕ → List ℚ)
    (srcTok : List ℕ) (k maxT maxLen : ℕ) :
    List.Perm (beam_search score srcTok k maxT maxLen)
      (((beamLoop score (bosIdx :: (srcTok ++ [eosIdx])) eosIdx k maxT maxLen
            ⟨1, [[bosIdx]], [1]⟩).tgt.map
          (fun t => (t.drop 1).takeWhile (fun x => x ≠ eosIdx))).zip
        (beamLoop score (bosIdx :: (srcTok ++ [eosIdx])) eosIdx k maxT maxLen
            ⟨1, [[bosIdx]], [1]⟩).probs) ∧
    ∀ i, i + 1 < (beam_search score srcTok k maxT maxLen).length →
      ((beam_search score srcTok k maxT maxLen).getD (i + 1) ([], 0)).2
        ≤ ((beam_search score srcTok k maxT maxLen).getD i ([], 0)).2 := by
  constructor
  · exact List.perm_insertionSort likGE _
  · have hs : List.Sorted likGE (beam_search score srcTok k maxT maxLen) :=
      List.sorted_insertionSort likGE _
    intro i hi
    have h1 : i < (beam_search score srcTok k maxT maxLen).length := by omega
    rw [List.getD_eq_getElem _ _ hi, List.getD_eq_getElem _ _ h1]
    exact List.Sorted.rel_get_of_lt hs (by simpa using Nat.lt_succ_self i)

/-- Claim C6: the decode loop runs exactly `max_length - 1` (at most
`max_length`) iterations of `beamStep` — each of which increases the
common row length by exactly one — the final common row length is
`max_length`, and every returned (stripped, truncated) sequence has
length at most `max_length`. -/
theorem beam_search_terminates (score : List ℕ → List ℕ → List ℚ)
    (srcTok : List ℕ) (k maxT maxLen : ℕ) (h2 : 2 ≤ maxLen) :
    (beamLoop score (bosIdx :: (srcTok ++ [eosIdx])) eosIdx k maxT maxLen
        ⟨1, [[bosIdx]], [1]⟩
      = (beamStep score (bosIdx :: (srcTok ++ [eosIdx])) eosIdx k maxT)^[maxLen - 1]
          ⟨1, [[bosIdx]], [1]⟩) ∧
    (∀ st : BeamState,
      (beamStep score (bosIdx :: (srcTok ++ [eosIdx])) eosIdx k maxT st).len
        = st.len + 1) ∧
    (beamLoop score (bosIdx :: (srcTok ++ [eosIdx])) eosIdx k maxT maxLen
        ⟨1, [[bosIdx]], [1]⟩).len = maxLen ∧
    ∀ p ∈ beam_search score srcTok k maxT maxLen, p.1.length ≤ maxLen := by
  have hiter := beamLoop_eq_iterate score (bosIdx :: (srcTok ++ [eosIdx]))
    eosIdx k maxT maxLen ⟨1, [[bosIdx]], [1]⟩
  refine ⟨by simpa using hiter,
    fun st => len_beamStep score _ eosIdx k maxT st, ?_, ?_⟩
  · rw [beamLoop_len]
    simp
    omega
  · intro p hp
    have hmem : p ∈ ((beamLoop score (bosIdx :: (srcTok ++ [eosIdx])) eosIdx k maxT
        maxLen ⟨1, [[bosIdx]], [1]⟩).tgt.map
          (fun t => (t.drop 1).takeWhile (fun x => x ≠ eosIdx))).zip
        (beamLoop score (bosIdx :: (srcTok ++ [eosIdx])) eosIdx k maxT maxLen
            ⟨1, [[bosIdx]], [1]⟩).probs := by
      exact (List.perm_insertionSort likGE _).mem_iff.mp hp
    have h1 := (List.mem_zip hmem).1
    rcases List.mem_map.mp h1 with ⟨t, ht, heq⟩
    have hrows : ∀ r ∈ (beamLoop score (bosIdx :: (srcTok ++ [eosIdx])) eosIdx k
        maxT maxLen ⟨1, [[bosIdx]], [1]⟩).tgt,
        r.length = (beamLoop score (bosIdx :: (srcTok ++ [eosIdx])) eosIdx k maxT
          maxLen ⟨1, [[bosIdx]], [1]⟩).len := by
      refine beamLoop_invariant score _ eosIdx k maxT maxLen
        (fun st hst => beamStep_rows_len score _ eosIdx k maxT st hst) _ ?_
      intro r hr
      simp at hr
      simp [hr]
    have hlen := hrows t ht
    rw [beamLoop_len] at hlen
    have hlen2 : t.length = max 1 maxLen := hlen
    calc p.1.length = ((t.drop 1).takeWhile (fun x => x ≠ eosIdx)).length := by
          rw [← heq]
      _ ≤ (t.drop 1).length := (List.takeWhile_sublist _).length_le
      _ ≤ maxLen := by
          rw [List.length_drop, hlen2]
          omega

/-! ### Claim C2: expansion keeps children aligned with parents -/

theorem getD_map_fst (l : List (ℕ × ℚ)) (n : ℕ) (h : n < l.length) :
    (l.map Prod.fst).getD n 0 = (l.getD n (0, 0)).1 := by
  rw [List.getD_eq_getElem _ _ (by simpa using h), List.getD_eq_getElem _ _ h,
    List.getElem_map]

theorem getD_map_snd (l : List (ℕ × ℚ)) (n : ℕ) (h : n < l.length) :
    (l.map Prod.snd).getD n 0 = (l.getD n (0, 0)).2 := by
  rw [List.getD_eq_getElem _ _ (by simpa using h), List.getD_eq_getElem _ _ h,
    List.getElem_map]

theorem getD_map_rows {α β : Type} (l : List α) (f : α → List β) (n : ℕ)
    (h : n < l.length) (d : α) :
    (l.map f).getD n [] = f (l.getD n d) := by
  rw [List.getD_eq_getElem _ _ (by simpa using h), List.getD_eq_getElem _ _ h,
    List.getElem_map]

theorem indexSelect_map {α β : Type} (l : List α) (f : α → β) (idx : List ℕ) :
    indexSelect (l.map f) idx = (indexSelect l idx).map f := by
  induction idx with
  | nil => rfl
  | cons i is ih =>
    simp only [indexSelect, List.filterMap_cons] at *
    rw [List.get?_map]
    cases h : l.get? i with
    | none => simpa [h] using ih
    | some a => simpa [h] using ih

theorem sum_map_length_eq {β : Type} (B : List (List β)) (k : ℕ)
    (h : ∀ b ∈ B, b.length = k) :
    (B.map List.length).sum = B.length * k := by
  induction B with
  | nil => simp
  | cons b bs ih =>
    simp only [List.map_cons, List.sum_cons, List.length_cons]
    rw [h b (List.mem_cons_self b bs),
      ih (fun x hx => h x (List.mem_cons_of_mem b hx))]
    ring

theorem append_beams_getD (k : ℕ) :
    ∀ (A B : List (List ℕ)) (i j : ℕ), A.length = B.length →
      (∀ b ∈ B, b.length = k) → i < A.length → j < k →
      (append_beams A B).getD (i * k + j) []
        = A.getD i [] ++ [(B.getD i []).getD j 0] := by
  intro A
  induction A with
  | nil => intro B i j _ _ hi _; simp at hi
  | cons a A ih =>
    intro B i j hAB hrows hi hj
    cases B with
    | nil => simp at hAB
    | cons b B =>
      have hb : b.length = k := hrows b (List.mem_cons_self b B)
      have hfirst : append_beams (a :: A) (b :: B)
          = (b.map (fun t => a ++ [t])) ++ append_beams A B := by
        simp [append_beams, List.zip_cons_cons]
      cases i with
      | zero =>
        rw [hfirst, Nat.zero_mul, Nat.zero_add,
          List.getD_append _ _ _ _ (by simpa [hb] using hj)]
        simp only [List.getD_cons_zero]
        rw [List.getD_eq_getElem _ _ (by simpa [hb] using hj),
          List.getElem_map]
        rw [List.getD_eq_getElem _ _ (by omega)]
      | succ i =>
        have harith : (i + 1) * k + j = b.length + (i * k + j) := by
          rw [hb, Nat.succ_mul]
          omega
        rw [hfirst, harith,
          List.getD_append_right _ _ _ _ (by simp)]
        simp only [List.length_map, List.getD_cons_succ]
        rw [Nat.add_sub_cancel_left]
        exact ih B i j (by simpa using hAB)
          (fun x hx => hrows x (List.mem_cons_of_mem b hx)) (by simpa using hi) hj

theorem repeat_interleave_getD (k : ℕ) :
    ∀ (l : List ℚ) (i j : ℕ), i < l.length → j < k →
      (repeat_interleave l k).getD (i * k + j) 0 = l.getD i 0 := by
  intro l
  induction l with
  | nil => intro i j hi _; simp at hi
  | cons p ps ih =>
    intro i j hi hj
    have hfirst : repeat_interleave (p :: ps) k
        = List.replicate k p ++ repeat_interleave ps k := by
      simp [repeat_interleave]
    cases i with
    | zero =>
      rw [hfirst, Nat.zero_mul, Nat.zero_add,
        List.getD_append _ _ _ _ (by simpa using hj)]
      simp only [List.getD_cons_zero]
      rw [List.getD_eq_getElem _ _ (by simpa using hj), List.getElem_replicate]
    | succ i =>
      have harith : (i + 1) * k + j = k + (i * k + j) := by
        rw [Nat.succ_mul]; omega
      rw [hfirst, harith,
        List.getD_append_right _ _ _ _ (by simp),
        List.length_replicate, Nat.add_sub_cancel_left]
      simp only [List.getD_cons_succ]
      exact ih i j (by simpa using hi) hj

theorem flatten_getD_uniform (k : ℕ) :
    ∀ (B : List (List ℚ)) (i j : ℕ), (∀ b ∈ B, b.length = k) →
      i < B.length → j < k →
      B.flatten.getD (i * k + j) 0 = (B.getD i []).getD j 0 := by
  intro B
  induction B with
  | nil => intro i j _ hi _; simp at hi
  | cons b bs ih =>
    intro i j hrows hi hj
    have hb : b.length = k := hrows b (List.mem_cons_self b bs)
    cases i with
    | zero =>
      rw [List.flatten_cons, Nat.zero_mul, Nat.zero_add,
        List.getD_append _ _ _ _ (by omega)]
      simp
    | succ i =>
      have harith : (i + 1) * k + j = b.length + (i * k + j) := by
        rw [hb, Nat.succ_mul]; omega
      rw [List.flatten_cons, harith,
        List.getD_append_right _ _ _ _ (by omega), Nat.add_sub_cancel_left]
      simp only [List.getD_cons_succ]
      exact ih i j (fun x hx => hrows x (List.mem_cons_of_mem b hx))
        (by simpa using hi) hj

/-- Claim C2: at every expansion step, for each active (non-terminated)
row `i` and each of its `beam_width` selected candidates `j`, the merged
pool holds at position `i * beam_width + j` a child whose token row is the
parent row with that candidate token appended and whose likelihood is the
parent likelihood times that candidate's probability — the duplicated
likelihood rows stay aligned with the duplicated token rows. -/
theorem beamStepMerge_child (score : List ℕ → List ℕ → List ℚ) (src : List ℕ)
    (eos k : ℕ) (st : BeamState) (hst : st.tgt.length = st.probs.length)
    (hk : ∀ t, k ≤ (score src t).length) (i j : ℕ)
    (hi : i < (indexSelect st.tgt (indices_terminated st.tgt eos).2).length)
    (hj : j < k) :
    (beamStepMerge score src eos k st).tgt.getD (i * k + j) []
      = (indexSelect st.tgt (indices_terminated st.tgt eos).2).getD i []
        ++ [((topk (score src
              ((indexSelect st.tgt (indices_terminated st.tgt eos).2).getD i []))
            k).getD j (0, 0)).1] ∧
    (beamStepMerge score src eos k st).probs.getD (i * k + j) 0
      = (indexSelect st.probs (indices_terminated st.tgt eos).2).getD i 0
        * ((topk (score src
              ((indexSelect st.tgt (indices_terminated st.tgt eos).2).getD i []))
            k).getD j (0, 0)).2 := by
  have hIlt := mem_indices_snd_lt st.tgt eos
  have hIltp : ∀ x ∈ (indices_terminated st.tgt eos).2, x < st.probs.length :=
    fun x hx => hst ▸ hIlt x hx
  have hIltm : ∀ x ∈ (indices_terminated st.tgt eos).2,
      x < (st.tgt.map (fun t => topk (score src t) k)).length := by
    intro x hx; rw [List.length_map]; exact hIlt x hx
  set A := indexSelect st.tgt (indices_terminated st.tgt eos).2 with hA
  set P := indexSelect st.probs (indices_terminated st.tgt eos).2 with hP
  have hAlen : A.length = (indices_terminated st.tgt eos).2.length :=
    indexSelect_length _ _ hIlt
  have hPlen : P.length = (indices_terminated st.tgt eos).2.length :=
    indexSelect_length _ _ hIltp
  have htopklen : ∀ t, (topk (score src t) k).length = k := by
    intro t
    rw [topk, topkPairs_length, List.enum_length]
    exact Nat.min_eq_left (hk t)
  have hpredsO : indexSelect (st.tgt.map (fun t => topk (score src t) k))
      (indices_terminated st.tgt eos).2
      = A.map (fun t => topk (score src t) k) := by
    rw [indexSelect_map, hA]
  have hbeams : (indexSelect (st.tgt.map (fun t => topk (score src t) k))
        (indices_terminated st.tgt eos).2).map (fun row => row.map Prod.fst)
      = A.map (fun t => (topk (score src t) k).map Prod.fst) := by
    rw [hpredsO, List.map_map]
    rfl
  have hprows : (indexSelect (st.tgt.map (fun t => topk (score src t) k))
        (indices_terminated st.tgt eos).2).map (fun row => row.map Prod.snd)
      = A.map (fun t => (topk (score src t) k).map Prod.snd) := by
    rw [hpredsO, List.map_map]
    rfl
  have hrows_beams : ∀ b ∈ A.map (fun t => (topk (score src t) k).map Prod.fst),
      b.length = k := by
    intro b hb
    rcases List.mem_map.mp hb with ⟨t, _, rfl⟩
    rw [List.length_map]
    exact htopklen t
  have hrows_probs : ∀ b ∈ A.map (fun t => (topk (score src t) k).map Prod.snd),
      b.length = k := by
    intro b hb
    rcases List.mem_map.mp hb with ⟨t, _, rfl⟩
    rw [List.length_map]
    exact htopklen t
  have hABlen : A.length
      = (A.map (fun t => (topk (score src t) k).map Prod.fst)).length := by
    rw [List.length_map]
  have htotal : i * k + j < A.length * k := by
    have h1 : i * k + j < (i + 1) * k := by rw [Nat.succ_mul]; omega
    have h2 : (i + 1) * k ≤ A.length * k := Nat.mul_le_mul_right k hi
    omega
  have hexplen : (append_beams A
      (A.map (fun t => (topk (score src t) k).map Prod.fst))).length
      = A.length * k := by
    rw [length_append_beams _ _ hABlen, sum_map_length_eq _ k hrows_beams,
      List.length_map]
  have hflatlen : (A.map (fun t => (topk (score src t) k).map Prod.snd)).flatten.length
      = A.length * k := by
    rw [List.length_flatten]
    have : (A.map (fun t => (topk (score src t) k).map Prod.snd)).map List.length
        = (A.map (fun t => (topk (score src t) k).map Prod.snd)).map List.length := rfl
    rw [sum_map_length_eq _ k hrows_probs, List.length_map]
  have hreplen : (repeat_interleave P k).length = A.length * k := by
    rw [length_repeat_interleave, hPlen, ← hAlen]
  constructor
  · show (append_beams A ((indexSelect (st.tgt.map (fun t => topk (score src t) k))
        (indices_terminated st.tgt eos).2).map (fun row => row.map Prod.fst))
      ++ (indexSelect st.tgt (indices_terminated st.tgt eos).1).map
        (fun t => t ++ [0])).getD (i * k + j) [] = _
    rw [hbeams, List.getD_append _ _ _ _ (by rw [hexplen]; exact htotal)]
    rw [append_beams_getD k A _ i j hABlen hrows_beams hi hj]
    rw [getD_map_rows A _ i hi []]
    rw [getD_map_fst _ j (by rw [htopklen]; exact hj)]
  · show (mulPointwise (repeat_interleave P k)
        (((indexSelect (st.tgt.map (fun t => topk (score src t) k))
          (indices_terminated st.tgt eos).2).map (fun row => row.map Prod.snd)).flatten)
      ++ (indexSelect st.probs (indices_terminated st.tgt eos).1).map
        (fun p => p * decayRate)).getD (i * k + j) 0 = _
    rw [hprows]
    have hziplen : (mulPointwise (repeat_interleave P k)
        ((A.map (fun t => (topk (score src t) k).map Prod.snd)).flatten)).length
        = A.length * k := by
      rw [mulPointwise, List.length_zipWith, hreplen, hflatlen]
      omega
    rw [List.getD_append _ _ _ _ (by rw [hziplen]; exact htotal)]
    rw [mulPointwise]
    rw [List.getD_eq_getElem _ _ (by
        rw [List.length_zipWith, hreplen, hflatlen]; omega),
      List.getElem_zipWith]
    rw [← List.getD_eq_getElem (repeat_interleave P k) 0 (by rw [hreplen]; exact htotal),
      ← List.getD_eq_getElem _ 0 (by rw [hflatlen]; exact htotal)]
    rw [repeat_interleave_getD k P i j (by rw [hPlen, ← hAlen]; exact hi) hj]
    rw [flatten_getD_uniform k _ i j hrows_probs (by rw [List.length_map]; exact hi) hj]
    rw [getD_map_rows A _ i hi []]
    rw [getD_map_snd _ j (by rw [htopklen]; exact hj)]

/-! ### Singleton-pool step lemmas (claims C1, C3, C7) -/

theorem zipWith_replicate_mul (p : ℚ) :
    ∀ (l : List ℚ) (k : ℕ), l.length ≤ k →
      List.zipWith (· * ·) (List.replicate k p) l = l.map (fun q => p * q) := by
  intro l
  induction l with
  | nil => intro k _; simp
  | cons q qs ih =>
    intro k hk
    cases k with
    | zero => simp at hk
    | succ k =>
      simp only [List.replicate_succ, List.zipWith_cons_cons, List.map_cons]
      rw [ih k (by simpa using hk)]

/-- A step on a pool holding a single terminated row pads that row with
one `0` token and decays its likelihood, leaving everything else alone. -/
theorem beamStep_terminated_singleton (score : List ℕ → List ℕ → List ℚ)
    (src : List ℕ) (k maxT L : ℕ) (row : List ℕ) (p : ℚ)
    (heos : eosIdx ∈ row) (hmaxT : 1 ≤ maxT) :
    beamStep score src eosIdx k maxT ⟨L, [row], [p]⟩
      = ⟨L + 1, [row ++ [0]], [p * decayRate]⟩ := by
  have henum : List.enum [row] = [(0, row)] := rfl
  have hidx : indices_terminated [row] eosIdx = ([0], []) := by
    simp [indices_terminated, henum, heos]
  have hmerge : beamStepMerge score src eosIdx k ⟨L, [row], [p]⟩
      = ⟨L + 1, [row ++ [0]], [p * decayRate]⟩ := by
    simp [beamStepMerge, hidx, indexSelect, append_beams, repeat_interleave,
      mulPointwise]
  rw [beamStep, hmerge, trimPool, if_pos (by simpa using hmaxT)]

/-- A step on a pool holding a single active row expands it into its top
`beam_width` children, then trims. -/
theorem beamStep_active_singleton (score : List ℕ → List ℕ → List ℚ)
    (src : List ℕ) (k maxT L : ℕ) (row : List ℕ) (p : ℚ)
    (heos : eosIdx ∉ row) :
    beamStep score src eosIdx k maxT ⟨L, [row], [p]⟩
      = trimPool maxT ⟨L + 1,
          (topk (score src row) k).map (fun c => row ++ [c.1]),
          (topk (score src row) k).map (fun c => p * c.2)⟩ := by
  have henum : List.enum [row] = [(0, row)] := rfl
  have hidx : indices_terminated [row] eosIdx = ([], [0]) := by
    simp [indices_terminated, henum, heos]
  have hmerge : beamStepMerge score src eosIdx k ⟨L, [row], [p]⟩
      = ⟨L + 1, (topk (score src row) k).map (fun c => row ++ [c.1]),
          (topk (score src row) k).map (fun c => p * c.2)⟩ := by
    simp only [beamStepMerge, hidx, indexSelect, List.filterMap_cons,
      List.filterMap_nil]
    have h1 : ([row].map (fun t => topk (score src t) k)).get? 0
        = some (topk (score src row) k) := rfl
    have h2 : ([row] : List (List ℕ)).get? 0 = some row := rfl
    have h3 : ([p] : List ℚ).get? 0 = some p := rfl
    simp only [h1, h2, h3]
    simp only [BeamState.mk.injEq, true_and]
    constructor
    · simp [append_beams]
    · rw [repeat_interleave, mulPointwise]
      simp only [List.flatMap_cons, List.flatMap_nil, List.append_nil,
        List.flatten, List.flatten_cons, List.flatten_nil, List.append_nil]
      rw [zipWith_replicate_mul p _ k (by simp [topk, topkPairs_length])]
      simp [List.map_map, Function.comp]
  rw [beamStep, hmerge]

/-- Iterating the loop on a single terminated row: one `0` pad and one
decay factor per remaining step, until the length bound is reached. -/
theorem beamLoop_terminated_singleton (score : List ℕ → List ℕ → List ℚ)
    (src : List ℕ) (k maxT : ℕ) (hmaxT : 1 ≤ maxT) :
    ∀ (n L : ℕ) (row : List ℕ) (p : ℚ), eosIdx ∈ row →
      beamLoop score src eosIdx k maxT n ⟨L, [row], [p]⟩
        = ⟨max L n, [row ++ List.replicate (n - L) 0], [p * decayRate ^ (n - L)]⟩ := by
  intro n
  have key : ∀ (fuel L : ℕ) (row : List ℕ) (p : ℚ), n - L ≤ fuel → eosIdx ∈ row →
      beamLoop score src eosIdx k maxT n ⟨L, [row], [p]⟩
        = ⟨max L n, [row ++ List.replicate (n - L) 0], [p * decayRate ^ (n - L)]⟩ := by
    intro fuel
    induction fuel with
    | zero =>
      intro L row p hf heos
      have h0 : n - L = 0 := by omega
      rw [beamLoop_eq, if_neg (by simp; omega)]
      simp [h0]
      omega
    | succ fuel ih =>
      intro L row p hf heos
      by_cases hlt : L < n
      · rw [beamLoop_eq, if_pos (by simpa using hlt)]
        rw [beamStep_terminated_singleton score src k maxT L row p heos hmaxT]
        rw [ih (L + 1) (row ++ [0]) (p * decayRate) (by omega)
          (List.mem_append_left _ heos)]
        have e1 : max (L + 1) n = max L n := by omega
        have e2 : (row ++ [0]) ++ List.replicate (n - (L + 1)) 0
            = row ++ List.replicate (n - L) 0 := by
          rw [List.append_assoc]
          congr 1
          have : n - L = (n - (L + 1)) + 1 := by omega
          rw [this, List.replicate_succ]
          rfl
        have e3 : (p * decayRate) * decayRate ^ (n - (L + 1))
            = p * decayRate ^ (n - L) := by
          have : n - L = (n - (L + 1)) + 1 := by omega
          rw [this, pow_succ]
          ring
        rw [e1, e2, e3]
      · rw [beamLoop_eq, if_neg (by simpa using hlt)]
        have h0 : n - L = 0 := by omega
        simp [h0]
        omega
  exact fun L row p heos => key (n - L) L row p (le_refl _) heos

/-! ### Claim C3: terminated hypotheses decay and get one extra token -/

theorem getD_map_q (l : List ℚ) (f : ℚ → ℚ) (n : ℕ) (h : n < l.length) :
    (l.map f).getD n 0 = f (l.getD n 0) := by
  rw [List.getD_eq_getElem _ _ (by simpa using h), List.getD_eq_getElem _ _ h,
    List.getElem_map]

/-- Claim C3, amended: at every decode step, every terminated hypothesis
(the `m`-th row of the terminated block, which occupies the last positions
of the merged pool) has its likelihood multiplied by `0.999` and its token
row extended by exactly one token — the token with index `0`, which is the
`<unk>` index, not the `<pad>` index (`torch.zeros` is used, while
`<pad>` has index `1`).  Being a property of every step, the decay
compounds for every step the hypothesis survives. -/
theorem beamStepMerge_decay (score : List ℕ → List ℕ → List ℚ) (src : List ℕ)
    (eos k : ℕ) (st : BeamState) (hst : st.tgt.length = st.probs.length)
    (m : ℕ)
    (hm : m < (indexSelect st.tgt (indices_terminated st.tgt eos).1).length) :
    (beamStepMerge score src eos k st).tgt.getD
        ((beamStepMerge score src eos k st).tgt.length
          - (indexSelect st.tgt (indices_terminated st.tgt eos).1).length + m) []
      = (indexSelect st.tgt (indices_terminated st.tgt eos).1).getD m [] ++ [0] ∧
    (beamStepMerge score src eos k st).probs.getD
        ((beamStepMerge score src eos k st).tgt.length
          - (indexSelect st.tgt (indices_terminated st.tgt eos).1).length + m) 0
      = (indexSelect st.probs (indices_terminated st.tgt eos).1).getD m 0
        * decayRate := by
  have hT := mem_indices_fst_lt st.tgt eos
  have hTp : ∀ x ∈ (indices_terminated st.tgt eos).1, x < st.probs.length :=
    fun x hx => hst ▸ hT x hx
  have hTlen : (indexSelect st.tgt (indices_terminated st.tgt eos).1).length
      = (indices_terminated st.tgt eos).1.length := indexSelect_length _ _ hT
  have hPTlen : (indexSelect st.probs (indices_terminated st.tgt eos).1).length
      = (indices_terminated st.tgt eos).1.length := indexSelect_length _ _ hTp
  have halign := beamStepMerge_aligned score src eos k st hst
  have htgt : (beamStepMerge score src eos k st).tgt
      = append_beams (indexSelect st.tgt (indices_terminated st.tgt eos).2)
          ((indexSelect (st.tgt.map (fun t => topk (score src t) k))
            (indices_terminated st.tgt eos).2).map (fun row => row.map Prod.fst))
        ++ (indexSelect st.tgt (indices_terminated st.tgt eos).1).map
            (fun t => t ++ [0]) := rfl
  have hprobs : (beamStepMerge score src eos k st).probs
      = mulPointwise
          (repeat_interleave (indexSelect st.probs (indices_terminated st.tgt eos).2) k)
          (((indexSelect (st.tgt.map (fun t => topk (score src t) k))
            (indices_terminated st.tgt eos).2).map (fun row => row.map Prod.snd)).flatten)
        ++ (indexSelect st.probs (indices_terminated st.tgt eos).1).map
            (fun p => p * decayRate) := rfl
  have hlen_tgt : (beamStepMerge score src eos k st).tgt.length
      = (append_beams (indexSelect st.tgt (indices_terminated st.tgt eos).2)
          ((indexSelect (st.tgt.map (fun t => topk (score src t) k))
            (indices_terminated st.tgt eos).2).map (fun row => row.map Prod.fst))).length
        + (indexSelect st.tgt (indices_terminated st.tgt eos).1).length := by
    rw [htgt, List.length_append, List.length_map]
  have hlen_probs : (beamStepMerge score src eos k st).probs.length
      = (mulPointwise
          (repeat_interleave (indexSelect st.probs (indices_terminated st.tgt eos).2) k)
          (((indexSelect (st.tgt.map (fun t => topk (score src t) k))
            (indices_terminated st.tgt eos).2).map (fun row => row.map Prod.snd)).flatten)).length
        + (indexSelect st.probs (indices_terminated st.tgt eos).1).length := by
    rw [hprobs, List.length_append, List.length_map]
  have hexp_eq : (append_beams (indexSelect st.tgt (indices_terminated st.tgt eos).2)
          ((indexSelect (st.tgt.map (fun t => topk (score src t) k))
            (indices_terminated st.tgt eos).2).map (fun row => row.map Prod.fst))).length
      = (mulPointwise
          (repeat_interleave (indexSelect st.probs (indices_terminated st.tgt eos).2) k)
          (((indexSelect (st.tgt.map (fun t => topk (score src t) k))
            (indices_terminated st.tgt eos).2).map (fun row => row.map Prod.snd)).flatten)).length := by
    omega
  constructor
  · rw [hlen_tgt, Nat.add_sub_cancel, htgt]
    rw [List.getD_append_right _ _ _ _ (by omega)]
    rw [Nat.add_sub_cancel_left]
    exact getD_map_rows _ _ m hm []
  · rw [hlen_tgt, Nat.add_sub_cancel, hexp_eq, hprobs]
    rw [List.getD_append_right _ _ _ _ (by omega)]
    rw [Nat.add_sub_cancel_left]
    exact getD_map_q _ _ m (by omega)

/-- Claim C3, counterexample to the pad-token part: stepping a pool whose
single terminated row is `[<bos>, <eos>]` appends the token `0` (the
`<unk>` index), not the reserved `<pad>` index `1` that the claim names. -/
theorem beamStepMerge_pad_cex :
    (beamStepMerge (fun _ _ => [0, 0, 0, 1]) [] eosIdx 1
        ⟨2, [[bosIdx, eosIdx]], [1]⟩).tgt = [[bosIdx, eosIdx, 0]] ∧
    [[bosIdx, eosIdx, 0]] ≠ [[bosIdx, eosIdx, padIdx]] := by
  decide

/-! ### Claim C1: immediate end-of-sentence on the first step -/

theorem beam_search_immediate_eos_aux (score : List ℕ → List ℕ → List ℚ)
    (srcTok : List ℕ) (maxT n : ℕ) (h2 : 2 ≤ n) (hT : 1 ≤ maxT)
    (htop : topk (score (bosIdx :: (srcTok ++ [eosIdx])) [bosIdx]) 1
      = [(eosIdx, 1)]) :
    beam_search score srcTok 1 maxT n = [([], decayRate ^ (n - 2))] := by
  have hstep1 : beamStep score (bosIdx :: (srcTok ++ [eosIdx])) eosIdx 1 maxT
      ⟨1, [[bosIdx]], [1]⟩ = ⟨2, [[bosIdx, eosIdx]], [1]⟩ := by
    rw [beamStep_active_singleton _ _ _ _ _ _ _ (by decide), htop]
    simp only [List.map_cons, List.map_nil]
    rw [trimPool, if_pos (by simpa using hT)]
    norm_num
  have hloop : beamLoop score (bosIdx :: (srcTok ++ [eosIdx])) eosIdx 1 maxT n
      ⟨1, [[bosIdx]], [1]⟩
      = ⟨n, [[bosIdx, eosIdx] ++ List.replicate (n - 2) 0],
          [1 * decayRate ^ (n - 2)]⟩ := by
    rw [beamLoop_eq, if_pos (by simpa using h2), hstep1]
    rw [beamLoop_terminated_singleton score _ 1 maxT hT n 2 [bosIdx, eosIdx] 1
      (by decide)]
    congr 1
    omega
  rw [beam_search, hloop]
  simp only [List.map_cons, List.map_nil, List.drop_succ_cons, List.drop_nil]
  have hdrop : ([bosIdx, eosIdx] ++ List.replicate (n - 2) 0).drop 1
      = eosIdx :: List.replicate (n - 2) 0 := rfl
  rw [hdrop]
  have htw : (eosIdx :: List.replicate (n - 2) 0).takeWhile
      (fun x => x ≠ eosIdx) = [] := by
    simp [List.takeWhile]
  rw [htw]
  simp [List.insertionSort, List.zip]

/-- Claim C1, amended: with `beam_width = 1`, if the scorer puts
probability `1` on the end marker at the very first step, the single
hypothesis becomes `[<bos>, <eos>]` after one step and then — because the
loop does *not* stop when the active set is empty — keeps being padded
and decayed until the length bound, so `decode` returns one hypothesis
whose output sequence is empty (internally `[<bos>, <eos>]` plus pads)
with likelihood `0.999 ^ (max_length - 2)`, not `1.0`. -/
theorem beam_search_immediate_eos (score : List ℕ → List ℕ → List ℚ)
    (srcTok : List ℕ) (maxT n : ℕ) (h2 : 2 ≤ n) (hT : 1 ≤ maxT)
    (htop : topk (score (bosIdx :: (srcTok ++ [eosIdx])) [bosIdx]) 1
      = [(eosIdx, 1)]) :
    beam_search score srcTok 1 maxT n = [([], decayRate ^ (n - 2))] :=
  beam_search_immediate_eos_aux score srcTok maxT n h2 hT htop

/-- Claim C1, counterexample: with the scorer putting probability `1` on
the end marker, `beam_width = max_hypotheses = 1`, `max_length = 4`, the
returned likelihood is `0.999² ≠ 1.0` (and the returned sequence is the
empty output of truncating `[<bos>, <eos>, 0, 0]`, not a length-2 one). -/
theorem beam_search_immediate_eos_cex :
    beam_search (fun _ _ => [0, 0, 0, 1]) [] 1 1 4
      = [([], decayRate ^ (4 - 2))] ∧ decayRate ^ (4 - 2) ≠ (1 : ℚ) := by
  constructor
  · exact beam_search_immediate_eos_aux (fun _ _ => [0, 0, 0, 1]) [] 1 4
      (by norm_num) (by norm_num) (by decide)
  · rw [decayRate]
    norm_num

/-! ### Claim C8: no configuration validation is performed -/

/-- Claim C8, amended: the source performs no validation of the
hyperparameters.  A call with a non-positive maximum sentence length does
not fail: the loop body never runs and the initial `<bos>`-only
hypothesis is returned (stripped to the empty sequence) with likelihood
`1.0`. -/
theorem beam_search_no_validation (score : List ℕ → List ℕ → List ℚ)
    (srcTok : List ℕ) (k maxT : ℕ) :
    beam_search score srcTok k maxT 0 = [([], 1)] := by
  rw [beam_search, beamLoop_eq]
  norm_num

/-- Claim C8, counterexample: a concrete call with `max_length = 0`
returns a normal, non-empty result instead of failing with a
configuration error before the loop. -/
theorem beam_search_no_validation_cex :
    beam_search (fun _ _ => [0, 0, 0, 1]) [] 3 5 0 = [([], 1)] := by
  decide

/-! ### Claim C7: beam search with width 1 versus greedy search -/

theorem selectMax_fst_eq_argmaxP :
    ∀ (l : List (ℕ × ℚ)) (b : ℕ × ℚ), (selectMax b l).1 = argmaxP b l := by
  intro l
  induction l with
  | nil => intro b; rfl
  | cons x xs ih =>
    intro b
    simp only [selectMax, argmaxP]
    split
    · exact ih x
    · exact ih b

/-- `topk` with `k = 1` on a non-empty row selects exactly the argmax
token (the first maximal index). -/
theorem topk_one (l : List ℚ) (h : l ≠ []) :
    ∃ q : ℕ × ℚ, topk l 1 = [q] ∧ q.1 = argmaxIdx l := by
  cases l with
  | nil => exact absurd rfl h
  | cons x xs =>
    refine ⟨(selectMax (0, x) (xs.enumFrom 1)).1, ?_, ?_⟩
    · rfl
    · show _ = (argmaxP (0, x) (xs.enumFrom 1)).1
      rw [selectMax_fst_eq_argmaxP]

theorem greedyLoop_succ (score : List ℕ → List ℕ → List ℚ) (src : List ℕ)
    (tgt : List ℕ) (n : ℕ) :
    greedyLoop score src tgt (n + 1)
      = if argmaxIdx (score src tgt) = eosIdx
        then tgt ++ [argmaxIdx (score src tgt)]
        else greedyLoop score src (tgt ++ [argmaxIdx (score src tgt)]) n := rfl

theorem greedyLoop_append (score : List ℕ → List ℕ → List ℚ) (src : List ℕ) :
    ∀ (m : ℕ) (tgt : List ℕ), ∃ g, greedyLoop score src tgt m = tgt ++ g := by
  intro m
  induction m with
  | zero => intro tgt; exact ⟨[], by simp [greedyLoop]⟩
  | succ m ih =>
    intro tgt
    simp only [greedyLoop]
    split
    · exact ⟨[argmaxIdx (score src tgt)], rfl⟩
    · rcases ih (tgt ++ [argmaxIdx (score src tgt)]) with ⟨g, hg⟩
      exact ⟨argmaxIdx (score src tgt) :: g, by rw [hg, List.append_assoc]; rfl⟩

/-- With `beam_width = max_hypotheses = 1` the pool stays a single row
whose appended tokens agree, step by step, with greedy selection on the
same source row: after `f` loop iterations the single beam row is the
greedy target truncated to `f` appended tokens (with padding once the end
marker has been produced, which the end-marker truncation removes). -/
theorem beamLoop_singleton_greedy (score : List ℕ → List ℕ → List ℚ)
    (src : List ℕ) (hne : ∀ t, score src t ≠ []) :
    ∀ (f L : ℕ) (row : List ℕ) (p : ℚ), eosIdx ∉ row → L = row.length →
      ∃ (s g : List ℕ) (q : ℚ),
        beamLoop score src eosIdx 1 1 (L + f) ⟨L, [row], [p]⟩
          = ⟨L + f, [row ++ s], [q]⟩ ∧
        greedyLoop score src row (f + 1) = row ++ g ∧
        s.takeWhile (fun x => x ≠ eosIdx)
          = (g.take f).takeWhile (fun x => x ≠ eosIdx) := by
  intro f
  induction f with
  | zero =>
    intro L row p heos hL
    rcases greedyLoop_append score src 1 row with ⟨g, hg⟩
    refine ⟨[], g, p, ?_, hg, by simp⟩
    rw [beamLoop_eq, if_neg (by simp)]
    simp
  | succ f ih =>
    intro L row p heos hL
    rw [beamLoop_eq, if_pos (show L < L + (f + 1) by omega)]
    rw [beamStep_active_singleton score src 1 1 L row p heos]
    rcases topk_one (score src row) (hne row) with ⟨c, hc, hcidx⟩
    rw [hc]
    simp only [List.map_cons, List.map_nil]
    rw [trimPool, if_pos (by simp)]
    by_cases ht : c.1 = eosIdx
    · have hmem : eosIdx ∈ row ++ [c.1] := by
        rw [← ht]
        exact List.mem_append_right _ (List.mem_cons_self _ _)
      rw [beamLoop_terminated_singleton score src 1 1 (le_refl 1)
        (L + (f + 1)) (L + 1) (row ++ [c.1]) (p * c.2) hmem]
      refine ⟨c.1 :: List.replicate f 0, [c.1], (p * c.2) * decayRate ^ f, ?_, ?_, ?_⟩
      · have e1 : max (L + 1) (L + (f + 1)) = L + (f + 1) := by omega
        have e2 : L + (f + 1) - (L + 1) = f := by omega
        rw [e1, e2, List.append_assoc]
        rfl
      · rw [greedyLoop_succ, ← hcidx, if_pos ht, ht]
      · rw [ht]
        have h1 : (eosIdx :: List.replicate f 0).takeWhile
            (fun x => x ≠ eosIdx) = [] := by simp [List.takeWhile]
        have h2 : (([eosIdx].take (f + 1))).takeWhile
            (fun x => x ≠ eosIdx) = [] := by simp [List.takeWhile]
        rw [h1, h2]
    · have heos' : eosIdx ∉ row ++ [c.1] := by
        intro hmem
        rcases List.mem_append.mp hmem with h | h
        · exact heos h
        · rcases List.mem_cons.mp h with h | h
          · exact ht h.symm
          · simp at h
      rcases ih (L + 1) (row ++ [c.1]) (p * c.2) heos' (by simp [hL]) with
        ⟨s, g, q, hbeam, hgreedy, htw⟩
      refine ⟨c.1 :: s, c.1 :: g, q, ?_, ?_, ?_⟩
      · have e1 : L + 1 + f = L + (f + 1) := by omega
        rw [e1] at hbeam
        rw [hbeam]
        rw [List.append_assoc]
        rfl
      · rw [greedyLoop_succ, ← hcidx, if_neg ht, hgreedy, List.append_assoc]
        rfl
      · have h1 : (c.1 :: s).takeWhile (fun x => x ≠ eosIdx)
            = c.1 :: s.takeWhile (fun x => x ≠ eosIdx) := by
          simp [List.takeWhile_cons, ht]
        have h2 : ((c.1 :: g).take (f + 1)).takeWhile (fun x => x ≠ eosIdx)
            = c.1 :: (g.take f).takeWhile (fun x => x ≠ eosIdx) := by
          simp [List.take_succ_cons, List.takeWhile_cons, ht]
        rw [h1, h2, htw]

/-- Claim C7, amended: the code's `beam_search` and `greedy_search`
differ in their source encoding (beam wraps the source tokens in
`<bos>`/`<eos>`, greedy does not) and in their output convention (greedy
keeps the final `<eos>` and runs up to `max_length` appended tokens,
beam appends at most `max_length - 1` tokens and truncates at the end
marker).  Modulo exactly those two differences — greedy run on the
wrapped source row, its output truncated to the first `max_length - 1`
tokens and cut at the end marker — beam search with
`beam_width = max_hypotheses = 1` produces precisely the greedy
sequence, for every scorer with non-empty distributions. -/
theorem beam_search_degenerate_greedy (score : List ℕ → List ℕ → List ℚ)
    (srcTok : List ℕ) (n : ℕ)
    (hne : ∀ t, score (bosIdx :: (srcTok ++ [eosIdx])) t ≠ []) :
    (beam_search score srcTok 1 1 n).map Prod.fst
      = [((greedy_search score (bosIdx :: (srcTok ++ [eosIdx])) n).take (n - 1)).takeWhile
          (fun x => x ≠ eosIdx)] := by
  cases n with
  | zero =>
    rw [beam_search, beamLoop_eq, if_neg (by norm_num)]
    simp [greedy_search, List.insertionSort]
  | succ m =>
    rcases beamLoop_singleton_greedy score (bosIdx :: (srcTok ++ [eosIdx])) hne
      m 1 [bosIdx] 1 (by decide) rfl with ⟨s, g, q, hbeam, hgreedy, htw⟩
    rw [Nat.add_comm 1 m] at hbeam
    rw [beam_search, hbeam]
    have hgs : greedy_search score (bosIdx :: (srcTok ++ [eosIdx])) (m + 1) = g := by
      rw [greedy_search, hgreedy]
      rfl
    rw [hgs]
    simp only [List.map_cons, List.map_nil, List.cons_append, List.nil_append,
      List.drop_succ_cons, List.drop_zero, Nat.add_sub_cancel,
      List.zip_cons_cons, List.zip_nil_right, List.insertionSort,
      List.orderedInsert]
    rw [htw]

/-- Claim C7, counterexample: with the scorer that always puts
probability `1` on the end marker, `beam_width = max_hypotheses = 1` and
`max_length = 3`, beam search returns the empty sequence (end marker
stripped) while greedy search returns the sequence `[<eos>]` (end marker
kept): the outputs are not equal. -/
theorem beam_search_degenerate_greedy_cex :
    (beam_search (fun _ _ => [0, 0, 0, 1]) [] 1 1 3).map Prod.fst = [[]] ∧
    greedy_search (fun _ _ => [0, 0, 0, 1]) [] 3 = [eosIdx] ∧
    ([] : List ℕ) ≠ [eosIdx] := by
  refine ⟨by decide, by decide, by decide⟩

/-! ### Claim C9: the `beautify` cleanup pass and idempotence -/

/-- Whether the two-character pattern `[a, b]` occurs in a string
(as consecutive characters). -/
def hasPat (a b : Char) : List Char → Bool
  | x :: y :: r => (decide (x = a) && decide (y = b)) || hasPat a b (y :: r)
  | _ => false

theorem hasPat_cc (a b x y : Char) (r : List Char) :
    hasPat a b (x :: y :: r)
      = ((decide (x = a) && decide (y = b)) || hasPat a b (y :: r)) := rfl

theorem rep2_cc (a b c x y : Char) (r : List Char) :
    rep2 a b c (x :: y :: r)
      = if x = a ∧ y = b then c :: rep2 a b c r
        else x :: rep2 a b c (y :: r) := rfl

theorem hasPat_tail {a b x : Char} {t : List Char}
    (h : hasPat a b (x :: t) = false) : hasPat a b t = false := by
  cases t with
  | nil => rfl
  | cons y r =>
    rw [hasPat_cc, Bool.or_eq_false_iff] at h
    exact h.2

theorem hasPat_head {a b x y : Char} {r : List Char}
    (h : hasPat a b (x :: y :: r) = false) : ¬(x = a ∧ y = b) := by
  intro hab
  rw [hasPat_cc, Bool.or_eq_false_iff, ← Bool.decide_and,
    decide_eq_false_iff_not] at h
  exact h.1 hab

/-- The head of a replacement result: either the original head character,
or (when the head matched the pattern) the replacement character. -/
theorem rep2_cons_head (a b c y : Char) (r : List Char) :
    (∃ t, rep2 a b c (y :: r) = y :: t)
      ∨ (y = a ∧ ∃ t, rep2 a b c (y :: r) = c :: t) := by
  cases r with
  | nil => exact Or.inl ⟨[], rfl⟩
  | cons z r' =>
    by_cases hm : y = a ∧ z = b
    · exact Or.inr ⟨hm.1, rep2 a b c r', by rw [rep2_cc, if_pos hm]⟩
    · exact Or.inl ⟨rep2 a b c (z :: r'), by rw [rep2_cc, if_neg hm]⟩

/-- A replacement pass is the identity when its pattern does not occur. -/
theorem rep2_noop (a b c : Char) :
    ∀ (s : List Char), hasPat a b s = false → rep2 a b c s = s
  | [], _ => rfl
  | [x], _ => rfl
  | x :: y :: r, h => by
    rw [rep2_cc, if_neg (hasPat_head h)]
    exact congrArg (List.cons x) (rep2_noop a b c (y :: r) (hasPat_tail h))

theorem hasPat_cons_reduce {a b x u : Char} {t : List Char}
    (hxu : ¬(x = a ∧ u = b)) (h : hasPat a b (u :: t) = false) :
    hasPat a b (x :: u :: t) = false := by
  rw [hasPat_cc, ← Bool.decide_and, decide_eq_false hxu, Bool.false_or]
  exact h

/-- A space-before-`c` replacement pass cannot create an occurrence of a
different space-adjacent pattern `[a, b]`. -/
theorem rep2_presL (c a b : Char) (hc : c ≠ spC) (hsp : a = spC ∨ b = spC)
    (hne : ¬(a = spC ∧ b = c)) :
    ∀ (s : List Char), hasPat a b s = false →
      hasPat a b (rep2 spC c c s) = false
  | [], _ => rfl
  | [_], _ => rfl
  | x :: y :: r, h => by
    have hxy := hasPat_head h
    have htail : hasPat a b (y :: r) = false := hasPat_tail h
    rw [rep2_cc]
    by_cases hm : x = spC ∧ y = c
    · rw [if_pos hm]
      have hr : hasPat a b r = false := hasPat_tail htail
      have hrec := rep2_presL c a b hc hsp hne r hr
      cases hrep : rep2 spC c c r with
      | nil => rfl
      | cons u t =>
        have hcu : ¬(c = a ∧ u = b) := by
          rintro ⟨hca, hub⟩
          rcases hsp with hs | hs
          · exact hc (hca.trans hs)
          · cases r with
            | nil => simp [rep2] at hrep
            | cons z r' =>
              have hz : u = z ∨ u = c := by
                rcases rep2_cons_head spC c c z r' with ⟨t', ht'⟩ | ⟨_, t', ht'⟩
                · rw [ht'] at hrep
                  exact Or.inl (List.cons.injEq .. ▸ hrep).1.symm
                · rw [ht'] at hrep
                  exact Or.inr (List.cons.injEq .. ▸ hrep).1.symm
              rcases hz with rfl | rfl
              · exact hasPat_head htail ⟨hm.2.trans hca, hub⟩
              · exact hc (hub.trans hs)
        rw [hrep] at hrec
        exact hasPat_cons_reduce hcu hrec
    · rw [if_neg hm]
      have hrec := rep2_presL c a b hc hsp hne (y :: r) htail
      rcases rep2_cons_head spC c c y r with ⟨t, ht⟩ | ⟨hy, t, ht⟩
      · rw [ht] at hrec ⊢
        exact hasPat_cons_reduce hxy hrec
      · have hxc : ¬(x = a ∧ c = b) := by
          rintro ⟨hxa, hcb⟩
          rcases hsp with hs | hs
          · exact hne ⟨hs, hcb.symm⟩
          · exact hc (hcb.trans hs)
        rw [ht] at hrec ⊢
        exact hasPat_cons_reduce hxc hrec

/-- A space-after-`c` replacement pass cannot create an occurrence of a
different space-adjacent pattern `[a, b]`. -/
theorem rep2_presR (c a b : Char) (hc : c ≠ spC) (hsp : a = spC ∨ b = spC)
    (hne : ¬(a = c ∧ b = spC)) :
    ∀ (s : List Char), hasPat a b s = false →
      hasPat a b (rep2 c spC c s) = false
  | [], _ => rfl
  | [_], _ => rfl
  | x :: y :: r, h => by
    have hxy := hasPat_head h
    have htail : hasPat a b (y :: r) = false := hasPat_tail h
    rw [rep2_cc]
    by_cases hm : x = c ∧ y = spC
    · rw [if_pos hm]
      have hr : hasPat a b r = false := hasPat_tail htail
      have hrec := rep2_presR c a b hc hsp hne r hr
      cases hrep : rep2 c spC c r with
      | nil => rfl
      | cons u t =>
        have hcu : ¬(c = a ∧ u = b) := by
          rintro ⟨hca, hub⟩
          rcases hsp with hs | hs
          · exact hc (hca.trans hs)
          · exact hne ⟨hca.symm, hs⟩
        rw [hrep] at hrec
        exact hasPat_cons_reduce hcu hrec
    · rw [if_neg hm]
      have hrec := rep2_presR c a b hc hsp hne (y :: r) htail
      rcases rep2_cons_head c spC c y r with ⟨t, ht⟩ | ⟨hy, t, ht⟩
      · rw [ht] at hrec ⊢
        exact hasPat_cons_reduce hxy hrec
      · have hxc : ¬(x = a ∧ c = b) := by
          rintro ⟨hxa, hcb⟩
          exact hxy ⟨hxa, hy.trans hcb⟩
        rw [ht] at hrec ⊢
        exact hasPat_cons_reduce hxc hrec

/-- On a string without double spaces, one space-before-`c` pass removes
every occurrence of its own pattern. -/
theorem rep2_selfL (c : Char) (hc : c ≠ spC) :
    ∀ (s : List Char), hasPat spC spC s = false →
      hasPat spC c (rep2 spC c c s) = false
  | [], _ => rfl
  | [_], _ => rfl
  | x :: y :: r, h => by
    rw [rep2_cc]
    by_cases hm : x = spC ∧ y = c
    · rw [if_pos hm]
      have hrec := rep2_selfL c hc r (hasPat_tail (hasPat_tail h))
      cases hrep : rep2 spC c c r with
      | nil => rfl
      | cons u t =>
        rw [hrep] at hrec
        exact hasPat_cons_reduce (fun hp => hc hp.1) hrec
    · rw [if_neg hm]
      have hrec := rep2_selfL c hc (y :: r) (hasPat_tail h)
      by_cases hx : x = spC
      · have hy_sp : y ≠ spC := by
          intro hy
          exact hasPat_head h ⟨hx, hy⟩
        rcases rep2_cons_head spC c c y r with ⟨t, ht⟩ | ⟨hy, t, ht⟩
        · rw [ht] at hrec ⊢
          exact hasPat_cons_reduce hm hrec
        · exact absurd hy hy_sp
      · rcases rep2_cons_head spC c c y r with ⟨t, ht⟩ | ⟨hy, t, ht⟩
        · rw [ht] at hrec ⊢
          exact hasPat_cons_reduce (fun hp => hx hp.1) hrec
        · rw [ht] at hrec ⊢
          exact hasPat_cons_reduce (fun hp => hx hp.1) hrec

/-- On a string without double spaces, one space-after-`c` pass removes
every occurrence of its own pattern. -/
theorem rep2_selfR (c : Char) (hc : c ≠ spC) :
    ∀ (s : List Char), hasPat spC spC s = false →
      hasPat c spC (rep2 c spC c s) = false
  | [], _ => rfl
  | [_], _ => rfl
  | x :: y :: r, h => by
    rw [rep2_cc]
    by_cases hm : x = c ∧ y = spC
    · rw [if_pos hm]
      have hrec := rep2_selfR c hc r (hasPat_tail (hasPat_tail h))
      cases hrep : rep2 c spC c r with
      | nil => rfl
      | cons u t =>
        have hu : u ≠ spC := by
          cases r with
          | nil => simp [rep2] at hrep
          | cons z r' =>
            have hz : z ≠ spC := by
              intro hz
              exact hasPat_head (hasPat_tail h) ⟨hm.2, hz⟩
            rcases rep2_cons_head c spC c z r' with ⟨t', ht'⟩ | ⟨_, t', ht'⟩
            · rw [ht'] at hrep
              injection hrep with h1 _
              rw [← h1]
              exact hz
            · rw [ht'] at hrep
              injection hrep with h1 _
              rw [← h1]
              exact hc
        rw [hrep] at hrec
        exact hasPat_cons_reduce (fun hp => hu hp.2) hrec
    · rw [if_neg hm]
      have hrec := rep2_selfR c hc (y :: r) (hasPat_tail h)
      rcases rep2_cons_head c spC c y r with ⟨t, ht⟩ | ⟨hy, t, ht⟩
      · rw [ht] at hrec ⊢
        exact hasPat_cons_reduce hm hrec
      · rw [ht] at hrec ⊢
        exact hasPat_cons_reduce (fun hp => hc hp.2) hrec

/-- Claim C9, amended: `beautify` is not idempotent in general (see the
counterexample below, where a double space before a period collapses
further on the second pass), but it is idempotent on every string that
contains no two consecutive spaces: one pass then removes all of its
patterns and cannot create new ones, so a second pass is the identity. -/
theorem beautify_idempotent_nds (s : List Char)
    (h : hasPat spC spC s = false) :
    beautify (beautify s) = beautify s := by
  have hdot : ('.' : Char) ≠ spC := by decide
  have hcom : (',' : Char) ≠ spC := by decide
  have hsem : (';' : Char) ≠ spC := by decide
  have hdash : ('-' : Char) ≠ spC := by decide
  have hapo : apoC ≠ spC := by decide
  have p1_1 : hasPat spC '.' (rep2 spC '.' '.' (s)) = false :=
    rep2_selfL '.' hdot (s) h
  have n1 : hasPat spC spC (rep2 spC '.' '.' (s)) = false :=
    rep2_presL '.' spC spC hdot (Or.inl rfl) (by decide) (s) h
  have p2_1 : hasPat spC '.' (rep2 spC ',' ',' (rep2 spC '.' '.' (s))) = false :=
    rep2_presL ',' spC '.' hcom (Or.inl rfl) (by decide) (rep2 spC '.' '.' (s)) p1_1
  have p2_2 : hasPat spC ',' (rep2 spC ',' ',' (rep2 spC '.' '.' (s))) = false :=
    rep2_selfL ',' hcom (rep2 spC '.' '.' (s)) n1
  have n2 : hasPat spC spC (rep2 spC ',' ',' (rep2 spC '.' '.' (s))) = false :=
    rep2_presL ',' spC spC hcom (Or.inl rfl) (by decide) (rep2 spC '.' '.' (s)) n1
  have p3_1 : hasPat spC '.' (rep2 spC ';' ';' (rep2 spC ',' ',' (rep2 spC '.' '.' (s)))) = false :=
    rep2_presL ';' spC '.' hsem (Or.inl rfl) (by decide) (rep2 spC ',' ',' (rep2 spC '.' '.' (s))) p2_1
  have p3_2 : hasPat spC ',' (rep2 spC ';' ';' (rep2 spC ',' ',' (rep2 spC '.' '.' (s)))) = false :=
    rep2_presL ';' spC ',' hsem (Or.inl rfl) (by decide) (rep2 spC ',' ',' (rep2 spC '.' '.' (s))) p2_2
  have p3_3 : hasPat spC ';' (rep2 spC ';' ';' (rep2 spC ',' ',' (rep2 spC '.' '.' (s)))) = false :=
    rep2_selfL ';' hsem (rep2 spC ',' ',' (rep2 spC '.' '.' (s))) n2
  have n3 : hasPat spC spC (rep2 spC ';' ';' (rep2 spC ',' ',' (rep2 spC '.' '.' (s)))) = false :=
    rep2_presL ';' spC spC hsem (Or.inl rfl) (by decide) (rep2 spC ',' ',' (rep2 spC '.' '.' (s))) n2
  have p4_1 : hasPat spC '.' (rep2 '-' spC '-' (rep2 spC ';' ';' (rep2 spC ',' ',' (rep2 spC '.' '.' (s))))) = false :=
    rep2_presR '-' spC '.' hdash (Or.inl rfl) (by decide) (rep2 spC ';' ';' (rep2 spC ',' ',' (rep2 spC '.' '.' (s)))) p3_1
  have p4_2 : hasPat spC ',' (rep2 '-' spC '-' (rep2 spC ';' ';' (rep2 spC ',' ',' (rep2 spC '.' '.' (s))))) = false :=
    rep2_presR '-' spC ',' hdash (Or.inl rfl) (by decide) (rep2 spC ';' ';' (rep2 spC ',' ',' (rep2 spC '.' '.' (s)))) p3_2
  have p4_3 : hasPat spC ';' (rep2 '-' spC '-' (rep2 spC ';' ';' (rep2 spC ',' ',' (rep2 spC '.' '.' (s))))) = false :=
    rep2_presR '-' spC ';' hdash (Or.inl rfl) (by decide) (rep2 spC ';' ';' (rep2 spC ',' ',' (rep2 spC '.' '.' (s)))) p3_3
  have p4_4 : hasPat '-' spC (rep2 '-' spC '-' (rep2 spC ';' ';' (rep2 spC ',' ',' (rep2 spC '.' '.' (s))))) = false :=
    rep2_selfR '-' hdash (rep2 spC ';' ';' (rep2 spC ',' ',' (rep2 spC '.' '.' (s)))) n3
  have n4 : hasPat spC spC (rep2 '-' spC '-' (rep2 spC ';' ';' (rep2 spC ',' ',' (rep2 spC '.' '.' (s))))) = false :=
    rep2_presR '-' spC spC hdash (Or.inl rfl) (by decide) (rep2 spC ';' ';' (rep2 spC ',' ',' (rep2 spC '.' '.' (s)))) n3
  have p5_1 : hasPat spC '.' (rep2 spC '-' '-' (rep2 '-' spC '-' (rep2 spC ';' ';' (rep2 spC ',' ',' (rep2 spC '.' '.' (s)))))) = false :=
    rep2_presL '-' spC '.' hdash (Or.inl rfl) (by decide) (rep2 '-' spC '-' (rep2 spC ';' ';' (rep2 spC ',' ',' (rep2 spC '.' '.' (s))))) p4_1
  have p5_2 : hasPat spC ',' (rep2 spC '-' '-' (rep2 '-' spC '-' (rep2 spC ';' ';' (rep2 spC ',' ',' (rep2 spC '.' '.' (s)))))) = false :=
    rep2_presL '-' spC ',' hdash (Or.inl rfl) (by decide) (rep2 '-' spC '-' (rep2 spC ';' ';' (rep2 spC ',' ',' (rep2 spC '.' '.' (s))))) p4_2
  have p5_3 : hasPat spC ';' (rep2 spC '-' '-' (rep2 '-' spC '-' (rep2 spC ';' ';' (rep2 spC ',' ',' (rep2 spC '.' '.' (s)))))) = false :=
    rep2_presL '-' spC ';' hdash (Or.inl rfl) (by decide) (rep2 '-' spC '-' (rep2 spC ';' ';' (rep2 spC ',' ',' (rep2 spC '.' '.' (s))))) p4_3
  have p5_4 : hasPat '-' spC (rep2 spC '-' '-' (rep2 '-' spC '-' (rep2 spC ';' ';' (rep2 spC ',' ',' (rep2 spC '.' '.' (s)))))) = false :=
    rep2_presL '-' '-' spC hdash (Or.inr rfl) (by decide) (rep2 '-' spC '-' (rep2 spC ';' ';' (rep2 spC ',' ',' (rep2 spC '.' '.' (s))))) p4_4
  have p5_5 : hasPat spC '-' (rep2 spC '-' '-' (rep2 '-' spC '-' (rep2 spC ';' ';' (rep2 spC ',' ',' (rep2 spC '.' '.' (s)))))) = false :=
    rep2_selfL '-' hdash (rep2 '-' spC '-' (rep2 spC ';' ';' (rep2 spC ',' ',' (rep2 spC '.' '.' (s))))) n4
  have n5 : hasPat spC spC (rep2 spC '-' '-' (rep2 '-' spC '-' (rep2 spC ';' ';' (rep2 spC ',' ',' (rep2 spC '.' '.' (s)))))) = false :=
    rep2_presL '-' spC spC hdash (Or.inl rfl) (by decide) (rep2 '-' spC '-' (rep2 spC ';' ';' (rep2 spC ',' ',' (rep2 spC '.' '.' (s))))) n4
  have p6_1 : hasPat spC '.' (rep2 apoC spC apoC (rep2 spC '-' '-' (rep2 '-' spC '-' (rep2 spC ';' ';' (rep2 spC ',' ',' (rep2 spC '.' '.' (s))))))) = false :=
    rep2_presR apoC spC '.' hapo (Or.inl rfl) (by decide) (rep2 spC '-' '-' (rep2 '-' spC '-' (rep2 spC ';' ';' (rep2 spC ',' ',' (rep2 spC '.' '.' (s)))))) p5_1
  have p6_2 : hasPat spC ',' (rep2 apoC spC apoC (rep2 spC '-' '-' (rep2 '-' spC '-' (rep2 spC ';' ';' (rep2 spC ',' ',' (rep2 spC '.' '.' (s))))))) = false :=
    rep2_presR apoC spC ',' hapo (Or.inl rfl) (by decide) (rep2 spC '-' '-' (rep2 '-' spC '-' (rep2 spC ';' ';' (rep2 spC ',' ',' (rep2 spC '.' '.' (s)))))) p5_2
  have p6_3 : hasPat spC ';' (rep2 apoC spC apoC (rep2 spC '-' '-' (rep2 '-' spC '-' (rep2 spC ';' ';' (rep2 spC ',' ',' (rep2 spC '.' '.' (s))))))) = false :=
    rep2_presR apoC spC ';' hapo (Or.inl rfl) (by decide) (rep2 spC '-' '-' (rep2 '-' spC '-' (rep2 spC ';' ';' (rep2 spC ',' ',' (rep2 spC '.' '.' (s)))))) p5_3
  have p6_4 : hasPat '-' spC (rep2 apoC spC apoC (rep2 spC '-' '-' (rep2 '-' spC '-' (rep2 spC ';' ';' (rep2 spC ',' ',' (rep2 spC '.' '.' (s))))))) = false :=
    rep2_presR apoC '-' spC hapo (Or.inr rfl) (by decide) (rep2 spC '-' '-' (rep2 '-' spC '-' (rep2 spC ';' ';' (rep2 spC ',' ',' (rep2 spC '.' '.' (s)))))) p5_4
  have p6_5 : hasPat spC '-' (rep2 apoC spC apoC (rep2 spC '-' '-' (rep2 '-' spC '-' (rep2 spC ';' ';' (rep2 spC ',' ',' (rep2 spC '.' '.' (s))))))) = false :=
    rep2_presR apoC spC '-' hapo (Or.inl rfl) (by decide) (rep2 spC '-' '-' (rep2 '-' spC '-' (rep2 spC ';' ';' (rep2 spC ',' ',' (rep2 spC '.' '.' (s)))))) p5_5
  have p6_6 : hasPat apoC spC (rep2 apoC spC apoC (rep2 spC '-' '-' (rep2 '-' spC '-' (rep2 spC ';' ';' (rep2 spC ',' ',' (rep2 spC '.' '.' (s))))))) = false :=
    rep2_selfR apoC hapo (rep2 spC '-' '-' (rep2 '-' spC '-' (rep2 spC ';' ';' (rep2 spC ',' ',' (rep2 spC '.' '.' (s)))))) n5
  have n6 : hasPat spC spC (rep2 apoC spC apoC (rep2 spC '-' '-' (rep2 '-' spC '-' (rep2 spC ';' ';' (rep2 spC ',' ',' (rep2 spC '.' '.' (s))))))) = false :=
    rep2_presR apoC spC spC hapo (Or.inl rfl) (by decide) (rep2 spC '-' '-' (rep2 '-' spC '-' (rep2 spC ';' ';' (rep2 spC ',' ',' (rep2 spC '.' '.' (s)))))) n5
  have p7_1 : hasPat spC '.' (rep2 spC apoC apoC (rep2 apoC spC apoC (rep2 spC '-' '-' (rep2 '-' spC '-' (rep2 spC ';' ';' (rep2 spC ',' ',' (rep2 spC '.' '.' (s)))))))) = false :=
    rep2_presL apoC spC '.' hapo (Or.inl rfl) (by decide) (rep2 apoC spC apoC (rep2 spC '-' '-' (rep2 '-' spC '-' (rep2 spC ';' ';' (rep2 spC ',' ',' (rep2 spC '.' '.' (s))))))) p6_1
  have p7_2 : hasPat spC ',' (rep2 spC apoC apoC (rep2 apoC spC apoC (rep2 spC '-' '-' (rep2 '-' spC '-' (rep2 spC ';' ';' (rep2 spC ',' ',' (rep2 spC '.' '.' (s)))))))) = false :=
    rep2_presL apoC spC ',' hapo (Or.inl rfl) (by decide) (rep2 apoC spC apoC (rep2 spC '-' '-' (rep2 '-' spC '-' (rep2 spC ';' ';' (rep2 spC ',' ',' (rep2 spC '.' '.' (s))))))) p6_2
  have p7_3 : hasPat spC ';' (rep2 spC apoC apoC (rep2 apoC spC apoC (rep2 spC '-' '-' (rep2 '-' spC '-' (rep2 spC ';' ';' (rep2 spC ',' ',' (rep2 spC '.' '.' (s)))))))) = false :=
    rep2_presL apoC spC ';' hapo (Or.inl rfl) (by decide) (rep2 apoC spC apoC (rep2 spC '-' '-' (rep2 '-' spC '-' (rep2 spC ';' ';' (rep2 spC ',' ',' (rep2 spC '.' '.' (s))))))) p6_3
  have p7_4 : hasPat '-' spC (rep2 spC apoC apoC (rep2 apoC spC apoC (rep2 spC '-' '-' (rep2 '-' spC '-' (rep2 spC ';' ';' (rep2 spC ',' ',' (rep2 spC '.' '.' (s)))))))) = false :=
    rep2_presL apoC '-' spC hapo (Or.inr rfl) (by decide) (rep2 apoC spC apoC (rep2 spC '-' '-' (rep2 '-' spC '-' (rep2 spC ';' ';' (rep2 spC ',' ',' (rep2 spC '.' '.' (s))))))) p6_4
  have p7_5 : hasPat spC '-' (rep2 spC apoC apoC (rep2 apoC spC apoC (rep2 spC '-' '-' (rep2 '-' spC '-' (rep2 spC ';' ';' (rep2 spC ',' ',' (rep2 spC '.' '.' (s)))))))) = false :=
    rep2_presL apoC spC '-' hapo (Or.inl rfl) (by decide) (rep2 apoC spC apoC (rep2 spC '-' '-' (rep2 '-' spC '-' (rep2 spC ';' ';' (rep2 spC ',' ',' (rep2 spC '.' '.' (s))))))) p6_5
  have p7_6 : hasPat apoC spC (rep2 spC apoC apoC (rep2 apoC spC apoC (rep2 spC '-' '-' (rep2 '-' spC '-' (rep2 spC ';' ';' (rep2 spC ',' ',' (rep2 spC '.' '.' (s)))))))) = false :=
    rep2_presL apoC apoC spC hapo (Or.inr rfl) (by decide) (rep2 apoC spC apoC (rep2 spC '-' '-' (rep2 '-' spC '-' (rep2 spC ';' ';' (rep2 spC ',' ',' (rep2 spC '.' '.' (s))))))) p6_6
  have p7_7 : hasPat spC apoC (rep2 spC apoC apoC (rep2 apoC spC apoC (rep2 spC '-' '-' (rep2 '-' spC '-' (rep2 spC ';' ';' (rep2 spC ',' ',' (rep2 spC '.' '.' (s)))))))) = false :=
    rep2_selfL apoC hapo (rep2 apoC spC apoC (rep2 spC '-' '-' (rep2 '-' spC '-' (rep2 spC ';' ';' (rep2 spC ',' ',' (rep2 spC '.' '.' (s))))))) n6
  have f1 : hasPat spC '.' (beautify s) = false := p7_1
  have f2 : hasPat spC ',' (beautify s) = false := p7_2
  have f3 : hasPat spC ';' (beautify s) = false := p7_3
  have f4 : hasPat '-' spC (beautify s) = false := p7_4
  have f5 : hasPat spC '-' (beautify s) = false := p7_5
  have f6 : hasPat apoC spC (beautify s) = false := p7_6
  have f7 : hasPat spC apoC (beautify s) = false := p7_7
  show beautify (beautify s) = beautify s
  have hBdef : beautify (beautify s)
      = rep2 spC apoC apoC (rep2 apoC spC apoC (rep2 spC '-' '-'
          (rep2 '-' spC '-' (rep2 spC ';' ';' (rep2 spC ',' ','
            (rep2 spC '.' '.' (beautify s))))))) := rfl
  rw [hBdef]
  rw [rep2_noop spC '.' '.' (beautify s) f1]
  rw [rep2_noop spC ',' ',' (beautify s) f2]
  rw [rep2_noop spC ';' ';' (beautify s) f3]
  rw [rep2_noop '-' spC '-' (beautify s) f4]
  rw [rep2_noop spC '-' '-' (beautify s) f5]
  rw [rep2_noop apoC spC apoC (beautify s) f6]
  rw [rep2_noop spC apoC apoC (beautify s) f7]

/-- Claim C9, counterexample: `beautify` is not idempotent.  On the
string `"a  ."` (two spaces before the period), one pass removes only the
second space (Python's `str.replace` does not rescan text it has already
emitted), and a second pass removes the remaining one. -/
theorem beautify_not_idempotent_cex :
    beautify ['a', spC, spC, '.'] = ['a', spC, '.'] ∧
    beautify (beautify ['a', spC, spC, '.']) = ['a', '.'] ∧
    beautify (beautify ['a', spC, spC, '.']) ≠ beautify ['a', spC, spC, '.'] := by
  refine ⟨by decide, by decide, by decide⟩

/-! ### Concrete witnesses -/

theorem beamStepMerge_child_witness :
    0 < 1 ∧
    ((beamStepMerge (fun _ _ => [0, 0, 0, 1]) [] eosIdx 1
        ⟨1, [[bosIdx]], [1]⟩).tgt.getD (0 * 1 + 0) []
      = (indexSelect [[bosIdx]] (indices_terminated [[bosIdx]] eosIdx).2).getD 0 []
        ++ [((topk ((fun _ _ => [0, 0, 0, 1]) ([] : List ℕ)
              ((indexSelect [[bosIdx]] (indices_terminated [[bosIdx]] eosIdx).2).getD 0 []))
            1).getD 0 (0, 0)).1] ∧
    (beamStepMerge (fun _ _ => [0, 0, 0, 1]) [] eosIdx 1
        ⟨1, [[bosIdx]], [1]⟩).probs.getD (0 * 1 + 0) 0
      = (indexSelect [1] (indices_terminated [[bosIdx]] eosIdx).2).getD 0 0
        * ((topk ((fun _ _ => [0, 0, 0, 1]) ([] : List ℕ)
              ((indexSelect [[bosIdx]] (indices_terminated [[bosIdx]] eosIdx).2).getD 0 []))
            1).getD 0 (0, 0)).2) :=
  ⟨by decide,
    beamStepMerge_child (fun _ _ => [0, 0, 0, 1]) [] eosIdx 1
      ⟨1, [[bosIdx]], [1]⟩ rfl (fun _ => by show (1 : ℕ) ≤ 4; norm_num)
      0 0 (by decide) (by decide)⟩

theorem beamStepMerge_decay_witness :
    0 < (indexSelect [[bosIdx, eosIdx]]
        (indices_terminated [[bosIdx, eosIdx]] eosIdx).1).length ∧
    ((beamStepMerge (fun _ _ => [0, 0, 0, 1]) [] eosIdx 1
        ⟨2, [[bosIdx, eosIdx]], [1]⟩).tgt.getD
        ((beamStepMerge (fun _ _ => [0, 0, 0, 1]) [] eosIdx 1
            ⟨2, [[bosIdx, eosIdx]], [1]⟩).tgt.length
          - (indexSelect [[bosIdx, eosIdx]]
              (indices_terminated [[bosIdx, eosIdx]] eosIdx).1).length + 0) []
      = (indexSelect [[bosIdx, eosIdx]]
          (indices_terminated [[bosIdx, eosIdx]] eosIdx).1).getD 0 [] ++ [0] ∧
    (beamStepMerge (fun _ _ => [0, 0, 0, 1]) [] eosIdx 1
        ⟨2, [[bosIdx, eosIdx]], [1]⟩).probs.getD
        ((beamStepMerge (fun _ _ => [0, 0, 0, 1]) [] eosIdx 1
            ⟨2, [[bosIdx, eosIdx]], [1]⟩).tgt.length
          - (indexSelect [[bosIdx, eosIdx]]
              (indices_terminated [[bosIdx, eosIdx]] eosIdx).1).length + 0) 0
      = (indexSelect [1] (indices_terminated [[bosIdx, eosIdx]] eosIdx).1).getD 0 0
        * decayRate) :=
  ⟨by decide,
    beamStepMerge_decay (fun _ _ => [0, 0, 0, 1]) [] eosIdx 1
      ⟨2, [[bosIdx, eosIdx]], [1]⟩ rfl 0 (by decide)⟩

theorem beamStep_trim_bound_witness :
    ([[bosIdx]] : List (List ℕ)).length = ([1] : List ℚ).length ∧
    (beamStep (fun _ _ => [0, 0, 0, 1]) [] eosIdx 2 1
        ⟨1, [[bosIdx]], [1]⟩).probs.length ≤ 1 :=
  ⟨rfl,
    (beamStep_trim_bound (fun _ _ => [0, 0, 0, 1]) [] eosIdx 2 1
      ⟨1, [[bosIdx]], [1]⟩ rfl).1⟩

theorem beam_search_terminates_witness :
    2 ≤ 3 ∧
    (beamLoop (fun _ _ => [0, 0, 0, 1]) (bosIdx :: (([] : List ℕ) ++ [eosIdx]))
        eosIdx 1 1 3 ⟨1, [[bosIdx]], [1]⟩).len = 3 :=
  ⟨by norm_num,
    (beam_search_terminates (fun _ _ => [0, 0, 0, 1]) [] 1 1 3 (by norm_num)).2.2.1⟩

theorem beam_search_immediate_eos_witness :
    2 ≤ 4 ∧
    beam_search (fun _ _ => [0, 0, 0, 1]) [] 1 1 4 = [([], decayRate ^ (4 - 2))] :=
  ⟨by norm_num,
    beam_search_immediate_eos (fun _ _ => [0, 0, 0, 1]) [] 1 4 (by norm_num)
      (by norm_num) (by decide)⟩

theorem beam_search_degenerate_greedy_witness :
    (beam_search (fun _ _ => [0, 0, 0, 1]) [] 1 1 3).map Prod.fst
      = [((greedy_search (fun _ _ => [0, 0, 0, 1])
            (bosIdx :: (([] : List ℕ) ++ [eosIdx])) 3).take (3 - 1)).takeWhile
          (fun x => x ≠ eosIdx)] :=
  beam_search_degenerate_greedy (fun _ _ => [0, 0, 0, 1]) [] 3
    (fun _ => by show ([0, 0, 0, 1] : List ℚ) ≠ []; decide)

theorem beautify_idempotent_nds_witness :
    hasPat spC spC ['a', spC, '.'] = false ∧
    beautify (beautify ['a', spC, '.']) = beautify ['a', spC, '.'] :=
  ⟨by decide, beautify_idempotent_nds ['a', spC, '.'] (by decide)⟩
